import Mathlib

/-!
A verification development for the core of `cybozu-go/aptutil`, a caching
reverse proxy and mirroring toolkit for APT repositories.

The Go sources are shallowly embedded: pure helpers become Lean functions,
the on-disk cache (`cacher.Storage`) becomes explicit state passing over a
`Storage` structure, byte slices become `List Nat`, and `nil`-able digest
slices become `Option (List Nat)`.  The cryptographic digest functions
(`crypto/md5`, `crypto/sha1`, `crypto/sha256`) are external library calls in
Go and are therefore parameters of the model (`HashFns`).
-/

namespace Aptutil

/-- Byte strings are modelled as lists of naturals. -/
abbrev Bytes := List Nat

/-! ## Go string / path helpers

These embed the behaviour of the Go standard library functions used by the
sources: `strings.Trim`, `strings.Fields`, `strings.SplitN`, `path.Base`,
`path.Ext`, `path.Dir`, `path.Join`, `path.Clean` / `filepath.Clean`, and
`filepath.IsAbs` (all paths are slash separated as on unix). -/

/-- Characters stripped by `strings.Trim(s, " \t")`. -/
def isSpaceTab (c : Char) : Bool := (c == ' ') || (c == '\t')

/-- Embeds `strings.Trim(s, " \t")`: cut leading and trailing spaces/tabs. -/
def trimSpaceTab (s : String) : String :=
  String.mk (((s.toList.dropWhile isSpaceTab).reverse.dropWhile isSpaceTab).reverse)

/-- White space characters as recognised by Go `unicode.IsSpace` (the ASCII
subset, which is all the control files at hand can contain). -/
def isGoSpace (c : Char) : Bool :=
  (c == ' ') || (c == '\t') || (c == '\n') || (c == '\x0b') || (c == '\x0c') || (c == '\r')

/-- Helper for `splitFields`: splits a character list around runs of spaces. -/
def fieldsAux : List Char → List Char → List String
  | [], [] => []
  | [], acc => [String.mk acc.reverse]
  | c :: cs, acc =>
    if isGoSpace c then
      match acc with
      | [] => fieldsAux cs []
      | _ => String.mk acc.reverse :: fieldsAux cs []
    else fieldsAux cs (c :: acc)

/-- Embeds `strings.Fields`: split around runs of white space. -/
def splitFields (s : String) : List String := fieldsAux s.toList []

/-- Splits a character list at every occurrence of `sep`
(the behaviour of Go `strings.Split(s, sep)` for a one-character separator). -/
def splitChar (sep : Char) : List Char → List (List Char)
  | [] => [[]]
  | c :: cs =>
    let r := splitChar sep cs
    if c = sep then [] :: r
    else
      match r with
      | h :: t => (c :: h) :: t
      | [] => [[c]]

/-- Joins character lists with a separator character. -/
def intercalateChar (sep : Char) : List (List Char) → List Char
  | [] => []
  | [x] => x
  | x :: xs => x ++ sep :: intercalateChar sep xs

/-- The element-stack loop of Go `path.Clean` / `filepath.Clean`: empty and
`.` elements are dropped, `..` pops a previous element when possible, is
dropped at the root, and is kept at the start of a relative path. -/
def cleanStack (rooted : Bool) : List (List Char) → List (List Char) → List (List Char)
  | [], acc => acc.reverse
  | seg :: rest, acc =>
    if seg = [] || seg = ['.'] then cleanStack rooted rest acc
    else if seg = ['.', '.'] then
      match acc with
      | top :: acc' =>
        if top = ['.', '.'] then cleanStack rooted rest (seg :: top :: acc')
        else cleanStack rooted rest acc'
      | [] =>
        if rooted then cleanStack rooted rest []
        else cleanStack rooted rest [seg]
    else cleanStack rooted rest (seg :: acc)

/-- Embeds Go `path.Clean` (equally `filepath.Clean` on unix) on character
lists: shortest lexically equivalent path; the empty path cleans to `.`. -/
def cleanList (l : List Char) : List Char :=
  if l = [] then ['.']
  else
    let rooted := l.head? = some '/'
    let out := intercalateChar '/' (cleanStack rooted (splitChar '/' l) [])
    if rooted then '/' :: out
    else if out = [] then ['.'] else out

/-- Embeds Go `path.Clean` / `filepath.Clean` on strings. -/
def cleanPath (p : String) : String := String.mk (cleanList p.toList)

/-- Embeds Go `filepath.IsAbs` on unix: the path starts with `/`. -/
def isAbsPath (p : String) : Bool := p.toList.head? == some '/'

/-- Embeds Go `path.Base`: the last element of the path after trailing
slashes are removed; `""` gives `.`, an all-slash path gives `/`. -/
def pathBase (p : String) : String :=
  if p = "" then "."
  else
    let l := p.toList.reverse.dropWhile (fun c => c == '/')
    if l = [] then "/"
    else String.mk ((l.takeWhile (fun c => !(c == '/'))).reverse)

/-- Helper for `pathExt`: scan the reversed character list for a dot,
stopping at a slash. -/
def extRev : List Char → List Char → String
  | [], _ => ""
  | c :: rest, acc =>
    if c = '/' then ""
    else if c = '.' then String.mk ('.' :: acc)
    else extRev rest (c :: acc)

/-- Embeds Go `path.Ext` / `filepath.Ext`: the suffix of the last element
starting at its final dot, or `""` when there is no dot. -/
def pathExt (p : String) : String := extRev p.toList.reverse []

/-- Embeds Go `path.Split`'s first component: everything up to and including
the final slash. -/
def upToLastSlash (l : List Char) : List Char :=
  (l.reverse.dropWhile (fun c => !(c == '/'))).reverse

/-- Embeds Go `path.Dir`: `Clean` of everything before the final slash. -/
def pathDir (p : String) : String := cleanPath (String.mk (upToLastSlash p.toList))

/-- Embeds Go `path.Join` for two elements: empty elements are skipped from
the front and the slash-joined rest is cleaned. -/
def pathJoin2 (a b : String) : String :=
  if a = "" then (if b = "" then "" else cleanPath b)
  else cleanPath (a ++ "/" ++ b)

/-- True when `s` ends with `t` (Go `strings.HasSuffix`). -/
def strEndsWith (s t : String) : Bool := t.toList.reverse.isPrefixOf s.toList.reverse

/-- Removes the last `n` characters of a string (Go `base[:len(base)-n]`,
for ASCII content where bytes and characters coincide). -/
def dropLastStr (s : String) (n : Nat) : String :=
  String.mk (s.toList.take (s.toList.length - n))

/-! ## Checksum records (`apt.FileInfo`, from `src/apt/fileinfo.go`) -/

/-- Embeds `apt.FileInfo`: a logical path, a byte size and up to three
digests.  `none` stands for a `nil` Go slice (no checksum to be checked). -/
structure FileInfo where
  path : String
  size : Nat
  md5sum : Option Bytes
  sha1sum : Option Bytes
  sha256sum : Option Bytes
deriving Repr, DecidableEq

/-- A `nil` digest behaves as the empty byte string in comparisons
(`bytes.Compare` treats `nil` and empty alike). -/
def digestBytes (d : Option Bytes) : Bytes := d.getD []

/-- Embeds `bytes.Compare(a, b) == 0` on optional digests. -/
def digestEq (a b : Option Bytes) : Bool := digestBytes a == digestBytes b

/-- Embeds `FileInfo.Same` from `src/apt/fileinfo.go`.  The Go receiver
shortcut `fi == t` (pointer equality) is dropped: `Same` is reflexive on
values (`same_refl` below), so the function is unchanged on values. -/
def FileInfo.Same (fi t : FileInfo) : Bool :=
  if !(fi.path == t.path) then false
  else if !(fi.size == t.size) then false
  else if fi.md5sum.isSome && !(digestEq fi.md5sum t.md5sum) then false
  else if fi.sha1sum.isSome && !(digestEq fi.sha1sum t.sha1sum) then false
  else if fi.sha256sum.isSome && !(digestEq fi.sha256sum t.sha256sum) then false
  else true

/-- The three digest functions are external library calls in Go
(`crypto/md5`, `crypto/sha1`, `crypto/sha256`); the model is parametric in
them. -/
structure HashFns where
  md5 : Bytes → Bytes
  sha1 : Bytes → Bytes
  sha256 : Bytes → Bytes

/-- Embeds `FileInfo.CalcChecksums`: store the size and all three digests
of `data` in the record. -/
def calcChecksums (H : HashFns) (data : Bytes) (fi : FileInfo) : FileInfo :=
  { fi with
    size := data.length
    md5sum := some (H.md5 data)
    sha1sum := some (H.sha1 data)
    sha256sum := some (H.sha256 data) }

/-- Embeds `apt.MakeFileInfoNoChecksum`. -/
def makeFileInfoNoChecksum (path : String) (size : Nat) : FileInfo :=
  ⟨path, size, none, none, none⟩

/-- Embeds `apt.MakeFileInfo`. -/
def makeFileInfo (H : HashFns) (path : String) (data : Bytes) : FileInfo :=
  calcChecksums H data (makeFileInfoNoChecksum path 0)

/-- Embeds `FileInfo.HasChecksum`: an MD5 digest is present. -/
def FileInfo.HasChecksum (fi : FileInfo) : Bool := fi.md5sum.isSome

/-- Hexadecimal digit for a value below 16 (lower case, as
`encoding/hex`). -/
def hexDigit (n : Nat) : Char :=
  if n < 10 then Char.ofNat ('0'.toNat + n) else Char.ofNat ('a'.toNat + (n - 10))

/-- Embeds `hex.EncodeToString`. -/
def hexEncode (b : Bytes) : String :=
  String.mk (b.foldr (fun x acc => hexDigit (x / 16 % 16) :: hexDigit (x % 16) :: acc) [])

/-- Modelled from the spec: the bodies of `FileInfo.MD5SumPath`,
`FileInfo.SHA1Path` and `FileInfo.SHA256Path` are not under `src/` (only
their tests and callers are).  Spec §3: "Deriving a by-hash alias path for
digest D: replace the basename of the record's path with
`by-hash/<ALGO>/<hex(D)>` under the same directory"; the behaviour agrees
with `src/apt/fileinfo_test.go`. -/
def FileInfo.byhashAlias (fi : FileInfo) (algo : String) (d : Option Bytes) : String :=
  pathJoin2 (pathDir fi.path) ("by-hash/" ++ algo ++ "/" ++ hexEncode (digestBytes d))

/-- Modelled from the spec: `FileInfo.MD5SumPath`. -/
def FileInfo.MD5SumPath (fi : FileInfo) : String := fi.byhashAlias "MD5Sum" fi.md5sum

/-- Modelled from the spec: `FileInfo.SHA1Path`. -/
def FileInfo.SHA1Path (fi : FileInfo) : String := fi.byhashAlias "SHA1" fi.sha1sum

/-- Modelled from the spec: `FileInfo.SHA256Path`. -/
def FileInfo.SHA256Path (fi : FileInfo) : String := fi.byhashAlias "SHA256" fi.sha256sum

/-- The comparison described by claim C1 (spec §3), stated from the spec's
words for refutation: paths and sizes must match and every digest present
on BOTH records must match; a digest absent on either side is ignored. -/
def sameSpecC1 (r1 r2 : FileInfo) : Bool :=
  (r1.path == r2.path) && (r1.size == r2.size) &&
  (!(r1.md5sum.isSome && r2.md5sum.isSome) || digestEq r1.md5sum r2.md5sum) &&
  (!(r1.sha1sum.isSome && r2.sha1sum.isSome) || digestEq r1.sha1sum r2.sha1sum) &&
  (!(r1.sha256sum.isSome && r2.sha256sum.isSome) || digestEq r1.sha256sum r2.sha256sum)

/-- `Same` is reflexive on record values. -/
theorem same_refl (fi : FileInfo) : FileInfo.Same fi fi = true := by
  simp [FileInfo.Same, digestEq]

/-- Record with an MD5 digest, for the C1 counterexample. -/
def c1r1 : FileInfo := ⟨"a", 1, some [0], none, none⟩

/-- Record without digests, for the C1 counterexample. -/
def c1r2 : FileInfo := ⟨"a", 1, none, none, none⟩

/-- C1: counterexample.  `c1r1` and `c1r2` share path and size and have no
digest present on both records, so the claim makes `Same` true; the code
returns false because the MD5 digest present on the receiver is compared
against the other record's absent digest. -/
theorem same_claim_counterexample :
    FileInfo.Same c1r1 c1r2 = false ∧ sameSpecC1 c1r1 c1r2 = true := by decide

/-- C1 (amended): `Same(r1, r2)` is true iff the paths are equal, the sizes
are equal, and every digest present on the receiver `r1` is byte-for-byte
equal to `r2`'s corresponding digest, an absent digest on `r2` counting as
the empty byte string.  Digests absent on `r1` are ignored, even when
present on `r2`; a digest present only on `r1` makes the records differ
unless it is empty. -/
theorem same_iff (r1 r2 : FileInfo) :
    FileInfo.Same r1 r2 = true ↔
      r1.path = r2.path ∧ r1.size = r2.size ∧
      (r1.md5sum.isSome → digestBytes r1.md5sum = digestBytes r2.md5sum) ∧
      (r1.sha1sum.isSome → digestBytes r1.sha1sum = digestBytes r2.sha1sum) ∧
      (r1.sha256sum.isSome → digestBytes r1.sha256sum = digestBytes r2.sha256sum) := by
  have opt : ∀ (a : Option Bytes) (P : Prop), (a = none ∨ P) ↔ (a.isSome = true → P) := by
    intro a P; cases a <;> simp
  simp only [FileInfo.Same, digestEq]
  by_cases h1 : r1.path = r2.path <;> by_cases h2 : r1.size = r2.size <;>
    simp [h1, h2, opt]

/-! ## Debian control file parser (`apt.Parser`, from `src/unnamed/part_008`)

The `bufio.Scanner` is modelled as the list of input lines that remain; the
scanner itself is assumed not to fail (`s.Err() = nil`), which holds for
in-memory inputs whose lines stay below the 1 MiB token limit. -/

/-- Embeds `apt.Paragraph`: a mapping from field names to value lists,
realised as an association list in insertion order. -/
abbrev Paragraph := List (String × List String)

/-- Map lookup, with the Go zero value `nil` (here `[]`) for absent keys. -/
def paraFind (d : Paragraph) (k : String) : List String :=
  match d.find? (fun kv => kv.1 == k) with
  | some kv => kv.2
  | none => []

/-- Embeds `ret[k] = append(ret[k], v)`: append to the entry's value list,
creating the entry when absent. -/
def paraAppend (k v : String) : Paragraph → Paragraph
  | [] => [(k, [v])]
  | kv :: rest => if kv.1 == k then (kv.1, kv.2 ++ [v]) :: rest else kv :: paraAppend k v rest

/-- The PGP signed-message opening marker. -/
def pgpBegin : String := "-----BEGIN PGP SIGNED MESSAGE-----"

/-- The PGP signature opening marker. -/
def pgpSig : String := "-----BEGIN PGP SIGNATURE-----"

/-- Splits at the first colon (`strings.SplitN(l, ":", 2)`); the second
component is the remainder after the colon.  Only used on lines that
contain a colon. -/
def splitColon : List Char → List Char × List Char
  | [] => ([], [])
  | c :: cs =>
    if c = ':' then ([], cs)
    else
      let r := splitColon cs
      (c :: r.1, r.2)

/-- Parser errors: end of stream (`io.EOF`) or a malformed line. -/
inductive PErr where
  | eof
  | invalidLine (l : String)
deriving Repr, DecidableEq

/-- Embeds the mutable `apt.Parser` state: remaining input lines, the last
field name seen, the sticky error, and the PGP flag. -/
structure PState where
  lines : List String
  lastField : String
  err : Option PErr
  isPGP : Bool
deriving Repr, DecidableEq

/-- The inner loop of the PGP-begin case: discard lines up to and including
the next blank line (or everything, if none remains). -/
def skipToBlank : List String → List String
  | [] => []
  | l :: rest => if l = "" then rest else skipToBlank rest

theorem skipToBlank_length_le (ls : List String) : (skipToBlank ls).length ≤ ls.length := by
  induction ls with
  | nil => simp [skipToBlank]
  | cons l rest ih =>
    by_cases h : l = "" <;> simp [skipToBlank, h]
    omega

/-- How the scan loop of `Parser.Read` ended: an early `return` on a
malformed line, or a `break`/end of input with the paragraph built so far. -/
inductive LoopOut where
  | errLine (l : String) (rest : List String) (lastField : String) (isPGP : Bool)
  | done (ret : Paragraph) (rest : List String) (isPGP : Bool)
deriving Repr, DecidableEq

/-- Embeds the labelled `for p.s.Scan()` loop of `Parser.Read`: blank line
breaks; `#` lines are skipped; the PGP header block is discarded; the PGP
signature marker consumes the rest of the stream and breaks; a continuation
line appends to the last field (an error if there is none); a `NAME: value`
line records the field, dropping empty values; anything else is an error. -/
def scanLoop (ls : List String) (lastField : String) (pgp : Bool) (ret : Paragraph) : LoopOut :=
  match ls with
  | [] => .done ret [] pgp
  | l :: rest =>
    if l = "" then .done ret rest pgp
    else if l.toList.head? = some '#' then scanLoop rest lastField pgp ret
    else if l = pgpBegin then scanLoop (skipToBlank rest) lastField true ret
    else if pgp ∧ l = pgpSig then .done ret [] pgp
    else if l.toList.head? = some ' ' ∨ l.toList.head? = some '\t' then
      if lastField = "" then .errLine l rest lastField pgp
      else scanLoop rest lastField pgp (paraAppend lastField (trimSpaceTab l) ret)
    else if l.toList.contains ':' then
      let kv := splitColon l.toList
      let k := String.mk kv.1
      let v := trimSpaceTab (String.mk kv.2)
      if v = "" then scanLoop rest k pgp ret
      else scanLoop rest k pgp (paraAppend k v ret)
    else .errLine l rest lastField pgp
termination_by ls.length
decreasing_by
  all_goals simp
  exact Nat.lt_succ_of_le (skipToBlank_length_le rest)

/-- Embeds `Parser.Read`: a sticky error is returned at once; otherwise the
scan loop runs, `lastField` is reset, and an empty paragraph at the end of
the loop turns into `io.EOF`. -/
def ctlRead (s : PState) : Except PErr Paragraph × PState :=
  match s.err with
  | some e => (.error e, s)
  | none =>
    match scanLoop s.lines s.lastField s.isPGP [] with
    | .errLine l rest lf pgp =>
      (.error (.invalidLine l), ⟨rest, lf, some (.invalidLine l), pgp⟩)
    | .done ret rest pgp =>
      if ret = [] then (.error .eof, ⟨rest, "", some .eof, pgp⟩)
      else (.ok ret, ⟨rest, "", none, pgp⟩)

/-- `paraAppend` never creates an empty value list and never empties an
existing one. -/
theorem paraAppend_values_ne_nil (k v : String) (d : Paragraph)
    (h : ∀ kv ∈ d, kv.2 ≠ []) : ∀ kv ∈ paraAppend k v d, kv.2 ≠ [] := by
  induction d with
  | nil => simp [paraAppend]
  | cons kv0 rest ih =>
    by_cases hk : kv0.1 == k
    · simp only [paraAppend, hk, if_pos]
      intro kv hkv
      rcases List.mem_cons.mp hkv with h1 | h1
      · subst h1; simp
      · exact h kv (List.mem_cons_of_mem _ h1)
    · simp only [paraAppend, hk, Bool.false_eq_true, if_neg, not_false_iff]
      intro kv hkv
      rcases List.mem_cons.mp hkv with h1 | h1
      · rw [h1]; exact h kv0 (List.mem_cons_self _ _)
      · exact ih (fun kv' hkv' => h kv' (List.mem_cons_of_mem _ hkv')) kv h1

/-- Every paragraph handed out by the scan loop maps fields to nonempty
value lists, provided the accumulator already does. -/
theorem scanLoop_values_ne_nil (ls : List String) (lf : String) (pgp : Bool) (ret : Paragraph) :
    (∀ kv ∈ ret, kv.2 ≠ []) →
    ∀ out rest pgp', scanLoop ls lf pgp ret = .done out rest pgp' → ∀ kv ∈ out, kv.2 ≠ [] := by
  induction ls, lf, pgp, ret using scanLoop.induct with
  | case1 lf pgp ret =>
    intro hinv out rest pgp' heq
    simp only [scanLoop, LoopOut.done.injEq] at heq
    rw [← heq.1]; exact hinv
  | case2 lf pgp ret rest =>
    intro hinv out rest' pgp' heq
    simp only [scanLoop, reduceCtorEq, reduceIte, LoopOut.done.injEq] at heq
    rw [← heq.1]; exact hinv
  | case3 lf pgp ret l rest h1 h2 ih =>
    intro hinv out rest' pgp' heq
    rw [scanLoop, if_neg h1, if_pos h2] at heq
    exact ih hinv out rest' pgp' heq
  | case4 lf pgp ret rest h1 h2 ih =>
    intro hinv out rest' pgp' heq
    rw [scanLoop, if_neg h1, if_neg h2, if_pos rfl] at heq
    exact ih hinv out rest' pgp' heq
  | case5 lf pgp ret l rest h1 h2 h3 h4 =>
    intro hinv out rest' pgp' heq
    rw [scanLoop, if_neg h1, if_neg h2, if_neg h3, if_pos h4] at heq
    simp only [LoopOut.done.injEq] at heq
    rw [← heq.1]; exact hinv
  | case6 pgp ret l rest h1 h2 h3 h4 h5 =>
    intro hinv out rest' pgp' heq
    rw [scanLoop, if_neg h1, if_neg h2, if_neg h3, if_neg h4, if_pos h5,
      if_pos rfl] at heq
    exact absurd heq (by simp)
  | case7 lf pgp ret l rest h1 h2 h3 h4 h5 h6 ih =>
    intro hinv out rest' pgp' heq
    rw [scanLoop, if_neg h1, if_neg h2, if_neg h3, if_neg h4, if_pos h5,
      if_neg h6] at heq
    exact ih (paraAppend_values_ne_nil _ _ _ hinv) out rest' pgp' heq
  | case8 lf pgp ret l rest h1 h2 h3 h4 h5 h6 kv k v h7 ih =>
    intro hinv out rest' pgp' heq
    rw [scanLoop, if_neg h1, if_neg h2, if_neg h3, if_neg h4, if_neg h5,
      if_pos h6] at heq
    simp only [if_pos h7] at heq
    exact ih hinv out rest' pgp' heq
  | case9 lf pgp ret l rest h1 h2 h3 h4 h5 h6 kv k v h7 ih =>
    intro hinv out rest' pgp' heq
    rw [scanLoop, if_neg h1, if_neg h2, if_neg h3, if_neg h4, if_neg h5,
      if_pos h6] at heq
    simp only [if_neg h7] at heq
    exact ih (paraAppend_values_ne_nil _ _ _ hinv) out rest' pgp' heq
  | case10 lf pgp ret l rest h1 h2 h3 h4 h5 h6 =>
    intro hinv out rest' pgp' heq
    rw [scanLoop, if_neg h1, if_neg h2, if_neg h3, if_neg h4, if_neg h5,
      if_neg h6] at heq
    exact absurd heq (by simp)

/-- C8: when `Parser.Read`'s scan loop consumes the whole input (reaches
end of input), the call returns the end-of-stream error if the paragraph
collected so far is empty, and otherwise returns the partially built
paragraph without error; in either case the next `Read` reports
end-of-stream. -/
theorem read_at_end_of_input (s : PState) (ret : Paragraph) (pgp : Bool)
    (herr : s.err = none)
    (hloop : scanLoop s.lines s.lastField s.isPGP [] = .done ret [] pgp) :
    (if ret = [] then (ctlRead s).1 = .error .eof else (ctlRead s).1 = .ok ret) ∧
    (ctlRead (ctlRead s).2).1 = .error .eof := by
  by_cases h : ret = [] <;> simp [ctlRead, herr, hloop, h, scanLoop]

/-- Parser state for the C8 and C10 witnesses: a single field line, then
end of input. -/
def pstate0 : PState := ⟨["Field: val"], "", none, false⟩

/-- C8 witness: on the concrete input `"Field: val"` the first `Read`
returns the one-field paragraph and the second returns end-of-stream. -/
theorem read_at_end_of_input_witness :
    (if ([("Field", ["val"])] : Paragraph) = [] then (ctlRead pstate0).1 = .error .eof
     else (ctlRead pstate0).1 = .ok [("Field", ["val"])]) ∧
    (ctlRead (ctlRead pstate0).2).1 = .error .eof :=
  read_at_end_of_input pstate0 [("Field", ["val"])] false rfl
    (by simp [pstate0, scanLoop, pgpBegin, splitColon, trimSpaceTab, isSpaceTab, paraAppend])

/-- C10: every paragraph returned by `Parser.Read` maps each present field
name to a nonempty list of values (an empty-valued field line contributes
no entry; entries are only ever created together with a first value). -/
theorem read_values_nonempty (s : PState) (para : Paragraph) (s' : PState)
    (h : ctlRead s = (.ok para, s')) : ∀ kv ∈ para, kv.2 ≠ [] := by
  unfold ctlRead at h
  cases herr : s.err with
  | some e => rw [herr] at h; exact absurd h (by simp)
  | none =>
    rw [herr] at h
    cases hloop : scanLoop s.lines s.lastField s.isPGP [] with
    | errLine l rest lf pgp => rw [hloop] at h; exact absurd h (by simp)
    | done ret rest pgp =>
      rw [hloop] at h
      dsimp only at h
      by_cases hret : ret = []
      · rw [if_pos hret] at h; exact absurd h (by simp)
      · rw [if_neg hret] at h
        have hpara : ret = para := by
          have := congrArg Prod.fst h
          simpa using this
        exact hpara ▸ scanLoop_values_ne_nil s.lines s.lastField s.isPGP [] (by simp)
          ret rest pgp hloop

/-- C10 witness: the one entry of the paragraph parsed from
`"Field: val"` has a nonempty value list. -/
theorem read_values_nonempty_witness :
    (("Field", ["val"]) : String × List String).2 ≠ [] :=
  read_values_nonempty pstate0 [("Field", ["val"])] ⟨[], "", none, false⟩
    (by simp [ctlRead, pstate0, scanLoop, pgpBegin, splitColon, trimSpaceTab, isSpaceTab,
      paraAppend])
    ("Field", ["val"]) (by simp)

/-! ## Meta-file classification (`apt.IsMeta` / `apt.IsSupported`, from
`src/unnamed/part_006`) -/

/-- Embeds `apt.IsMeta`: the basename, with one recognised compression
suffix stripped, must be one of the repository index names. -/
def IsMeta (p : String) : Bool :=
  let base := pathBase p
  let base :=
    if strEndsWith base ".gz" then dropLastStr base 3
    else if strEndsWith base ".bz2" then dropLastStr base 4
    else if strEndsWith base ".xz" then dropLastStr base 3
    else if strEndsWith base ".lzma" then dropLastStr base 5
    else if strEndsWith base ".lz" then dropLastStr base 3
    else base
  (base == "Release") || (base == "Release.gpg") || (base == "InRelease") ||
    (base == "Packages") || (base == "Sources") || (base == "Index")

/-- Embeds `apt.IsSupported` from `src/unnamed/part_006` (the current
version of the duplicated file; the older copy in `src/unnamed/part_005`
lacks `.xz`): extensions whose compression `ExtractFileInfo` can decode. -/
def IsSupported (p : String) : Bool :=
  let e := pathExt p
  (e == "") || (e == ".gz") || (e == ".bz2") || (e == ".gpg") || (e == ".xz")

/-! ## The cacher's URL router (`cacher.URLMap`, from `src/unnamed/part_013`) -/

/-- The parts of a `net/url.URL` value the router touches. -/
structure GoURL where
  scheme : String
  host : String
  path : String
  rawPath : String
deriving Repr, DecidableEq

/-- A character allowed in a routing name by the pattern `[a-z0-9._-]`. -/
def validPfxChar (c : Char) : Bool :=
  (('a' ≤ c) && (c ≤ 'z')) || (('0' ≤ c) && (c ≤ '9')) || (c == '.') || (c == '_') || (c == '-')

/-- Embeds the anchored pattern `^[a-z0-9._-]+$` used by `URLMap.Register`. -/
def validPfx (s : String) : Bool := (!s.toList.isEmpty) && s.toList.all validPfxChar

/-- Embeds `cacher.URLMap`: a mapping from routing name to repository URL,
realised as an association list. -/
abbrev URLMap := List (String × GoURL)

/-- Go map assignment `m[k] = v`: replace the binding, or add one. -/
def assocSet (m : URLMap) (k : String) (v : GoURL) : URLMap :=
  match m with
  | [] => [(k, v)]
  | kv :: rest => if kv.1 == k then (k, v) :: rest else kv :: assocSet rest k v

/-- Go map read `m[k]`. -/
def assocFind (m : URLMap) (k : String) : Option GoURL :=
  match m.find? (fun kv => kv.1 == k) with
  | some kv => some kv.2
  | none => none

/-- Embeds `URLMap.Register`: reject names not matching the pattern, force
the URL path to end in a slash, then store the binding. -/
def urlRegister (um : URLMap) (pfx : String) (u : GoURL) : Option URLMap :=
  if !validPfx pfx then none
  else
    let u := if strEndsWith u.path "/" then u
             else { u with path := u.path ++ "/", rawPath := u.rawPath ++ "/" }
    some (assocSet um pfx u)

/-- Embeds `strings.SplitN(p, "/", 2)` on character lists: the part before
the first slash and, when a slash occurs, everything after it. -/
def splitN2Slash : List Char → List Char × Option (List Char)
  | [] => ([], none)
  | c :: cs =>
    if c = '/' then ([], some cs)
    else
      let r := splitN2Slash cs
      (c :: r.1, r.2)

/-- Embeds `URLMap.URL`: strip leading slashes, split off the first path
component, return the registered URL (resolving any remainder against it).
`net/url.URL.ResolveReference` is an external library call and is a
parameter `resolve` of the model. -/
def urlMapURL (resolve : GoURL → String → GoURL) (um : URLMap) (p : String) : Option GoURL :=
  let pl := p.toList.dropWhile (fun c => c == '/')
  let parts := splitN2Slash pl
  match assocFind um (String.mk parts.1) with
  | none => none
  | some u =>
    match parts.2 with
    | none => some u
    | some rest => some (resolve u (String.mk rest))

theorem splitN2Slash_no_slash (l : List Char) (h : ∀ c ∈ l, c ≠ '/') :
    splitN2Slash l = (l, none) := by
  induction l with
  | nil => simp [splitN2Slash]
  | cons c cs ih =>
    have hc : c ≠ '/' := h c (List.mem_cons_self _ _)
    simp [splitN2Slash, hc, ih (fun x hx => h x (List.mem_cons_of_mem _ hx))]

/-- C9: a request path consisting of any number of leading slashes followed
by a registered routing name alone (no further path component) resolves to
the registered base URL itself instead of `nil`. -/
theorem urlmap_bare_name_resolves (resolve : GoURL → String → GoURL) (um : URLMap)
    (pre : String) (u : GoURL) (k : Nat)
    (hval : validPfx pre = true)
    (hfind : assocFind um pre = some u) :
    urlMapURL resolve um (String.mk (List.replicate k '/') ++ pre) = some u := by
  have hchars : ∀ c ∈ pre.toList, validPfxChar c = true := by
    have := (Bool.and_eq_true _ _).mp hval
    exact fun c hc => (List.all_eq_true.mp this.2) c hc
  have hnoslash : ∀ c ∈ pre.toList, c ≠ '/' := by
    intro c hc heq
    have := hchars c hc
    rw [heq] at this
    simp [validPfxChar] at this
  have htl : (String.mk (List.replicate k '/') ++ pre).toList
      = List.replicate k '/' ++ pre.toList := rfl
  have hdrop : (List.replicate k '/' ++ pre.toList).dropWhile (fun c => c == '/')
      = pre.toList := by
    rw [List.dropWhile_append]
    have hall : (List.replicate k '/').dropWhile (fun c => c == '/') = [] := by
      simp [List.dropWhile_eq_nil_iff]
    simp only [List.isEmpty_iff]
    rw [hall]
    simp only [if_pos rfl]
    cases hp : pre.toList with
    | nil => simp
    | cons c cs =>
      have hc : c ≠ '/' := hnoslash c (by rw [hp]; exact List.mem_cons_self _ _)
      have hc' : (c == '/') = false := by simp [hc]
      simp [List.dropWhile, hc']
  unfold urlMapURL
  rw [htl, hdrop]
  simp only [splitN2Slash_no_slash pre.toList hnoslash]
  have hmk : String.mk pre.toList = pre := rfl
  rw [hmk, hfind]

/-- Base URL for the C9 witness. -/
def url0 : GoURL := ⟨"http", "archive.ubuntu.com", "/ubuntu/", "/ubuntu/"⟩

/-- C9 witness: the bare path `/ubuntu` under the map registering `ubuntu`
resolves to the registered URL. -/
theorem urlmap_bare_name_resolves_witness :
    urlMapURL (fun u _ => u) [("ubuntu", url0)]
      (String.mk (List.replicate 1 '/') ++ "ubuntu") = some url0 :=
  urlmap_bare_name_resolves (fun u _ => u) [("ubuntu", url0)] "ubuntu" url0 1
    (by decide) (by simp [assocFind])

/-! ## The cacher boundary of `Cacher.Get` (from `src/apt/parser_test.go`,
lines 604-617) -/

/-- Embeds the deterministic entry checks of `Cacher.Get`: an unroutable
path gives 404; a meta path whose compression is unsupported gives 404;
otherwise (`none`) the lookup/download retry loop runs. -/
def cacherGetReject (resolve : GoURL → String → GoURL) (um : URLMap) (p : String) : Option Nat :=
  if (urlMapURL resolve um p).isNone then some 404
  else if IsMeta p && !IsSupported p then some 404
  else none

/-- Routing map for the C4 counterexample. -/
def um4 : URLMap := [("ubuntu", url0)]

/-- C4: counterexample.  `Packages.xz` is a meta path with compression
extension `.xz`, routable under `um4`, yet `Cacher.Get` does not reject it
at the boundary (`IsSupported` accepts `.xz`), contradicting the claim that
`.xz` yields 404. -/
theorem cacher_xz_not_rejected :
    IsMeta "ubuntu/dists/trusty/main/binary-amd64/Packages.xz" = true ∧
    pathExt "ubuntu/dists/trusty/main/binary-amd64/Packages.xz" = ".xz" ∧
    cacherGetReject (fun u _ => u) um4 "ubuntu/dists/trusty/main/binary-amd64/Packages.xz"
      = none := by
  refine ⟨by decide, by decide, by decide⟩

/-- C4 (amended): only the `.lzma` and `.lz` compression extensions are
rejected for meta files at the cacher boundary with 404 (`.xz`, like `.gz`
and `.bz2`, is supported and handled); the rejection holds for every
routing map. -/
theorem cacher_meta_lzma_lz_rejected (resolve : GoURL → String → GoURL) (um : URLMap)
    (p : String) (hmeta : IsMeta p = true)
    (hext : pathExt p = ".lzma" ∨ pathExt p = ".lz") :
    cacherGetReject resolve um p = some 404 := by
  have hsup : IsSupported p = false := by
    rcases hext with h | h <;> simp [IsSupported, h]
  unfold cacherGetReject
  by_cases hurl : (urlMapURL resolve um p).isNone
  · rw [if_pos hurl]
  · rw [if_neg hurl, hmeta, hsup]
    simp

/-- C4 witness: a routable `Packages.lz` meta path is rejected with 404. -/
theorem cacher_meta_lzma_lz_rejected_witness :
    cacherGetReject (fun u _ => u) um4 "ubuntu/dists/trusty/main/binary-amd64/Packages.lz"
      = some 404 :=
  cacher_meta_lzma_lz_rejected (fun u _ => u) um4
    "ubuntu/dists/trusty/main/binary-amd64/Packages.lz" (by decide) (Or.inr (by decide))

/-! ## Release index extraction (`getFilesFromRelease`, from
`src/unnamed/part_006`) -/

/-- Embeds `strconv.ParseUint(s, 10, 64)`: decimal digits only, value
below `2^64`. -/
def parseUint64 (s : String) : Option Nat :=
  if s = "" then none
  else if s.toList.all (fun c => c.isDigit) then
    let n := s.toList.foldl (fun acc c => acc * 10 + (c.toNat - '0'.toNat)) 0
    if n < 2 ^ 64 then some n else none
  else none

/-- Value of one hexadecimal digit (`encoding/hex`). -/
def hexVal (c : Char) : Option Nat :=
  if ('0' ≤ c && c ≤ '9') then some (c.toNat - '0'.toNat)
  else if ('a' ≤ c && c ≤ 'f') then some (c.toNat - 'a'.toNat + 10)
  else if ('A' ≤ c && c ≤ 'F') then some (c.toNat - 'A'.toNat + 10)
  else none

/-- Helper for `hexDecode`: decode pairs of hexadecimal digits. -/
def hexDecodeList : List Char → Option Bytes
  | [] => some []
  | [_] => none
  | a :: b :: rest =>
    match hexVal a, hexVal b, hexDecodeList rest with
    | some x, some y, some r => some ((x * 16 + y) :: r)
    | _, _, _ => none

/-- Embeds `hex.DecodeString`. -/
def hexDecode (s : String) : Option Bytes := hexDecodeList s.toList

/-- Embeds `parseChecksum` from `src/unnamed/part_006`: a checksum line has
exactly three fields `<hex digest> <size> <path>`. -/
def parseChecksum (l : String) : Option (String × Nat × Bytes) :=
  match splitFields l with
  | [csumHex, sizeStr, p] =>
    match parseUint64 sizeStr, hexDecode csumHex with
    | some size, some csum => some (p, size, csum)
    | _, _ => none
  | _ => none

/-- The `map[string]*FileInfo` used by `getFilesFromRelease`, as an
association list in insertion order. -/
abbrev FileMap := List (String × FileInfo)

/-- Go map read `m[k]` on a `FileMap`. -/
def fmFind (m : FileMap) (k : String) : Option FileInfo :=
  match m.find? (fun kv => kv.1 == k) with
  | some kv => some kv.2
  | none => none

/-- Go map assignment `m[k] = v` on a `FileMap`. -/
def fmSet (m : FileMap) (k : String) (v : FileInfo) : FileMap :=
  match m with
  | [] => [(k, v)]
  | kv :: rest => if kv.1 == k then (k, v) :: rest else kv :: fmSet rest k v

/-- Go `delete(m, k)` on a `FileMap`. -/
def fmDel (m : FileMap) (k : String) : FileMap :=
  m.filter (fun kv => !(kv.1 == k))

/-- The shared `for _, l := range <block>` scaffold of the three digest
loops in `getFilesFromRelease`: parse each line, join the path under the
release's directory and feed it to the loop body `upd`; a parse error
aborts. -/
def relLoop (upd : FileMap → String → Nat → Bytes → FileMap) (dir : String) :
    List String → FileMap → Option FileMap
  | [], m => some m
  | l :: rest, m =>
    match parseChecksum l with
    | none => none
    | some (p0, size, csum) =>
      relLoop upd dir rest (upd m (pathJoin2 dir (cleanPath p0)) size csum)

/-- The `MD5Sum` loop body: insert a fresh record carrying the MD5 digest. -/
def updMd5 (m : FileMap) (p : String) (size : Nat) (csum : Bytes) : FileMap :=
  fmSet m p ⟨p, size, some csum, none, none⟩

/-- The `SHA1` loop body: add the digest to an existing record, or insert a
fresh one carrying only SHA1. -/
def updSha1 (m : FileMap) (p : String) (size : Nat) (csum : Bytes) : FileMap :=
  match fmFind m p with
  | some fi => fmSet m p { fi with sha1sum := some csum }
  | none => fmSet m p ⟨p, size, none, some csum, none⟩

/-- The `SHA256` loop body: add the digest to an existing record, or insert
a fresh one carrying only SHA256. -/
def updSha256 (m : FileMap) (p : String) (size : Nat) (csum : Bytes) : FileMap :=
  match fmFind m p with
  | some fi => fmSet m p { fi with sha256sum := some csum }
  | none => fmSet m p ⟨p, size, none, none, some csum⟩

/-- Embeds `getFilesFromRelease`: parse one paragraph, read the
`MD5Sum`/`SHA1`/`SHA256` blocks, build the path-keyed record map, drop the
release's records about itself, and return the remaining records together
with the paragraph.  The reader is the list of input lines. -/
def getFilesFromRelease (p : String) (input : List String) :
    Option (List FileInfo × Paragraph) :=
  let dir := pathDir p
  match ctlRead ⟨input, "", none, false⟩ with
  | (.error _, _) => none
  | (.ok d, _) =>
    let md5sums := paraFind d "MD5Sum"
    let sha1sums := paraFind d "SHA1"
    let sha256sums := paraFind d "SHA256"
    if md5sums.length = 0 ∧ sha1sums.length = 0 ∧ sha256sums.length = 0 then some ([], d)
    else
      match relLoop updMd5 dir md5sums [] with
      | none => none
      | some m1 =>
        match relLoop updSha1 dir sha1sums m1 with
        | none => none
        | some m2 =>
          match relLoop updSha256 dir sha256sums m2 with
          | none => none
          | some m3 =>
            let m4 := fmDel (fmDel (fmDel m3 (pathJoin2 dir "Release"))
              (pathJoin2 dir "Release.gpg")) (pathJoin2 dir "InRelease")
            some (m4.map (fun kv => kv.2), d)

theorem fmFind_nil (q : String) : fmFind [] q = none := rfl

theorem fmFind_cons (kv : String × FileInfo) (rest : FileMap) (q : String) :
    fmFind (kv :: rest) q = if kv.1 = q then some kv.2 else fmFind rest q := by
  simp only [fmFind, List.find?]
  by_cases h : kv.1 = q
  · rw [if_pos h, show (kv.1 == q) = true by simpa using h]
  · rw [if_neg h, show (kv.1 == q) = false by simpa using h]

theorem fmSet_nil (k : String) (v : FileInfo) : fmSet [] k v = [(k, v)] := rfl

theorem fmSet_cons (kv : String × FileInfo) (rest : FileMap) (k : String) (v : FileInfo) :
    fmSet (kv :: rest) k v = if kv.1 = k then (k, v) :: rest else kv :: fmSet rest k v := by
  simp only [fmSet]
  by_cases h : kv.1 = k
  · rw [show (kv.1 == k) = true by simpa using h, if_pos rfl, if_pos h]
  · rw [show (kv.1 == k) = false by simpa using h, if_neg h]
    simp

theorem fmDel_nil (k : String) : fmDel [] k = [] := rfl

theorem fmDel_cons (kv : String × FileInfo) (rest : FileMap) (k : String) :
    fmDel (kv :: rest) k = if kv.1 = k then fmDel rest k else kv :: fmDel rest k := by
  simp only [fmDel, List.filter]
  by_cases h : kv.1 = k
  · rw [show (!(kv.1 == k)) = false by simpa using h, if_pos h]
  · rw [show (!(kv.1 == k)) = true by simpa using h, if_neg h]

theorem fmFind_fmSet (m : FileMap) (k : String) (v : FileInfo) (q : String) :
    fmFind (fmSet m k v) q = if q = k then some v else fmFind m q := by
  induction m with
  | nil =>
    rw [fmSet_nil, fmFind_cons]
    by_cases h : q = k
    · subst h; simp
    · rw [if_neg (fun hc => h hc.symm), if_neg h, fmFind_nil]
  | cons kv rest ih =>
    by_cases hk : kv.1 = k
    · rw [fmSet_cons, if_pos hk, fmFind_cons, fmFind_cons]
      by_cases hq : q = k
      · subst hq; simp
      · have hkq : ¬((k, v).1 = q) := fun hc => hq hc.symm
        have hkvq : ¬(kv.1 = q) := fun hc => hq (hk ▸ hc).symm
        rw [if_neg hkq, if_neg hq, if_neg hkvq]
    · rw [fmSet_cons, if_neg hk, fmFind_cons, fmFind_cons, ih]
      by_cases hq : q = k
      · subst hq
        have hkvq : ¬(kv.1 = q) := fun hc => hk hc
        rw [if_pos rfl, if_pos rfl, if_neg hkvq]
      · rw [if_neg hq, if_neg hq]

theorem mem_fmSet (m : FileMap) (k : String) (v : FileInfo) (kv' : String × FileInfo)
    (h : kv' ∈ fmSet m k v) : kv' = (k, v) ∨ kv' ∈ m := by
  induction m with
  | nil => simpa [fmSet] using h
  | cons kv rest ih =>
    by_cases hk : kv.1 == k
    · rw [fmSet, if_pos hk] at h
      rcases List.mem_cons.mp h with h1 | h1
      · exact Or.inl h1
      · exact Or.inr (List.mem_cons_of_mem _ h1)
    · rw [fmSet, if_neg (by simpa using hk)] at h
      rcases List.mem_cons.mp h with h1 | h1
      · exact Or.inr (h1 ▸ List.mem_cons_self _ _)
      · rcases ih h1 with h2 | h2
        · exact Or.inl h2
        · exact Or.inr (List.mem_cons_of_mem _ h2)

theorem fmFind_mem (m : FileMap) (q : String) (fi : FileInfo)
    (h : fmFind m q = some fi) : (q, fi) ∈ m := by
  unfold fmFind at h
  cases hf : m.find? (fun kv => kv.1 == q) with
  | none => rw [hf] at h; exact absurd h (by simp)
  | some kv =>
    rw [hf] at h
    have hmem := List.mem_of_find?_eq_some hf
    have hpred := List.find?_some hf
    have hq : kv.1 = q := by simpa using hpred
    have hv : kv.2 = fi := by simpa using h
    have : kv = (q, fi) := Prod.ext hq hv
    exact this ▸ hmem

theorem fmFind_fmDel (m : FileMap) (k q : String) :
    fmFind (fmDel m k) q = if q = k then none else fmFind m q := by
  induction m with
  | nil =>
    rw [fmDel_nil, fmFind_nil]
    by_cases h : q = k <;> simp [h]
  | cons kv rest ih =>
    by_cases hk : kv.1 = k
    · rw [fmDel_cons, if_pos hk, ih]
      by_cases hq : q = k
      · rw [if_pos hq, if_pos hq]
      · have hkvq : ¬(kv.1 = q) := fun hc => hq (by rw [← hc]; exact hk)
        rw [if_neg hq, if_neg hq, fmFind_cons, if_neg hkvq]
    · rw [fmDel_cons, if_neg hk, fmFind_cons, fmFind_cons, ih]
      by_cases hq : q = k
      · subst hq
        have hkvq : ¬(kv.1 = q) := hk
        rw [if_pos rfl, if_pos rfl, if_neg hkvq]
      · rw [if_neg hq, if_neg hq]

theorem mem_fmDel (m : FileMap) (k : String) (kv : String × FileInfo)
    (h : kv ∈ fmDel m k) : kv ∈ m ∧ kv.1 ≠ k := by
  unfold fmDel at h
  have := List.mem_filter.mp h
  refine ⟨this.1, ?_⟩
  have hb := this.2
  simpa using hb

theorem relLoop_isSome_mono (upd : FileMap → String → Nat → Bytes → FileMap) (dir : String)
    (hpres : ∀ m p s c k, (fmFind m k).isSome = true → (fmFind (upd m p s c) k).isSome = true)
    (lines : List String) :
    ∀ m m', relLoop upd dir lines m = some m' →
      ∀ k, (fmFind m k).isSome = true → (fmFind m' k).isSome = true := by
  induction lines with
  | nil =>
    intro m m' h k hk
    simp only [relLoop, Option.some.injEq] at h
    exact h ▸ hk
  | cons l rest ih =>
    intro m m' h k hk
    cases hp : parseChecksum l with
    | none => rw [relLoop, hp] at h; exact absurd h (by simp)
    | some t =>
      obtain ⟨p0, size, csum⟩ := t
      rw [relLoop, hp] at h
      exact ih _ m' h k (hpres m _ size csum k hk)

theorem relLoop_covers (upd : FileMap → String → Nat → Bytes → FileMap) (dir : String)
    (hpres : ∀ m p s c k, (fmFind m k).isSome = true → (fmFind (upd m p s c) k).isSome = true)
    (hadd : ∀ m p s c, (fmFind (upd m p s c) p).isSome = true)
    (lines : List String) :
    ∀ m m', relLoop upd dir lines m = some m' →
      ∀ line ∈ lines, ∀ p0 size csum, parseChecksum line = some (p0, size, csum) →
        (fmFind m' (pathJoin2 dir (cleanPath p0))).isSome = true := by
  induction lines with
  | nil =>
    intro m m' h line hline
    exact absurd hline (by simp)
  | cons l rest ih =>
    intro m m' h line hline p0 size csum hp
    rcases List.mem_cons.mp hline with rfl | hline'
    · rw [relLoop, hp] at h
      exact relLoop_isSome_mono upd dir hpres rest _ m' h _ (hadd m _ size csum)
    · cases hpl : parseChecksum l with
      | none => rw [relLoop, hpl] at h; exact absurd h (by simp)
      | some t =>
        obtain ⟨q0, s0, c0⟩ := t
        rw [relLoop, hpl] at h
        exact ih _ m' h line hline' p0 size csum hp

theorem relLoop_path_inv (upd : FileMap → String → Nat → Bytes → FileMap) (dir : String)
    (hupd : ∀ m p s c, (∀ kv ∈ m, kv.2.path = kv.1) → ∀ kv ∈ upd m p s c, kv.2.path = kv.1)
    (lines : List String) :
    ∀ m m', relLoop upd dir lines m = some m' →
      (∀ kv ∈ m, kv.2.path = kv.1) → ∀ kv ∈ m', kv.2.path = kv.1 := by
  induction lines with
  | nil =>
    intro m m' h hinv
    simp only [relLoop, Option.some.injEq] at h
    exact h ▸ hinv
  | cons l rest ih =>
    intro m m' h hinv
    cases hp : parseChecksum l with
    | none => rw [relLoop, hp] at h; exact absurd h (by simp)
    | some t =>
      obtain ⟨p0, size, csum⟩ := t
      rw [relLoop, hp] at h
      exact ih _ m' h (hupd m _ size csum hinv)

theorem updMd5_pres (m : FileMap) (p : String) (s : Nat) (c : Bytes) (k : String)
    (hk : (fmFind m k).isSome = true) : (fmFind (updMd5 m p s c) k).isSome = true := by
  unfold updMd5
  rw [fmFind_fmSet]
  by_cases h : k = p <;> simp [h, hk]

theorem updMd5_add (m : FileMap) (p : String) (s : Nat) (c : Bytes) :
    (fmFind (updMd5 m p s c) p).isSome = true := by
  unfold updMd5
  rw [fmFind_fmSet]
  simp

theorem updMd5_inv (m : FileMap) (p : String) (s : Nat) (c : Bytes)
    (hinv : ∀ kv ∈ m, kv.2.path = kv.1) : ∀ kv ∈ updMd5 m p s c, kv.2.path = kv.1 := by
  intro kv hkv
  rcases mem_fmSet m p _ kv hkv with h | h
  · rw [h]
  · exact hinv kv h

theorem updSha1_pres (m : FileMap) (p : String) (s : Nat) (c : Bytes) (k : String)
    (hk : (fmFind m k).isSome = true) : (fmFind (updSha1 m p s c) k).isSome = true := by
  unfold updSha1
  cases fmFind m p <;> (rw [fmFind_fmSet]; by_cases h : k = p <;> simp [h, hk])

theorem updSha1_add (m : FileMap) (p : String) (s : Nat) (c : Bytes) :
    (fmFind (updSha1 m p s c) p).isSome = true := by
  unfold updSha1
  cases fmFind m p <;> (rw [fmFind_fmSet]; simp)

theorem updSha1_inv (m : FileMap) (p : String) (s : Nat) (c : Bytes)
    (hinv : ∀ kv ∈ m, kv.2.path = kv.1) : ∀ kv ∈ updSha1 m p s c, kv.2.path = kv.1 := by
  intro kv hkv
  unfold updSha1 at hkv
  cases hf : fmFind m p with
  | some fi =>
    rw [hf] at hkv
    rcases mem_fmSet m p _ kv hkv with h | h
    · rw [h]
      have := hinv (p, fi) (fmFind_mem m p fi hf)
      simpa using this
    · exact hinv kv h
  | none =>
    rw [hf] at hkv
    rcases mem_fmSet m p _ kv hkv with h | h
    · rw [h]
    · exact hinv kv h

theorem updSha256_pres (m : FileMap) (p : String) (s : Nat) (c : Bytes) (k : String)
    (hk : (fmFind m k).isSome = true) : (fmFind (updSha256 m p s c) k).isSome = true := by
  unfold updSha256
  cases fmFind m p <;> (rw [fmFind_fmSet]; by_cases h : k = p <;> simp [h, hk])

theorem updSha256_add (m : FileMap) (p : String) (s : Nat) (c : Bytes) :
    (fmFind (updSha256 m p s c) p).isSome = true := by
  unfold updSha256
  cases fmFind m p <;> (rw [fmFind_fmSet]; simp)

theorem updSha256_inv (m : FileMap) (p : String) (s : Nat) (c : Bytes)
    (hinv : ∀ kv ∈ m, kv.2.path = kv.1) : ∀ kv ∈ updSha256 m p s c, kv.2.path = kv.1 := by
  intro kv hkv
  unfold updSha256 at hkv
  cases hf : fmFind m p with
  | some fi =>
    rw [hf] at hkv
    rcases mem_fmSet m p _ kv hkv with h | h
    · rw [h]
      have := hinv (p, fi) (fmFind_mem m p fi hf)
      simpa using this
    · exact hinv kv h
  | none =>
    rw [hf] at hkv
    rcases mem_fmSet m p _ kv hkv with h | h
    · rw [h]
    · exact hinv kv h

/-- C5: on any successful extraction from a Release/InRelease stream, no
returned record points at the directory's own `Release`, `Release.gpg` or
`InRelease` file, while every other path listed in any of the
`MD5Sum`/`SHA1`/`SHA256` blocks does get a record. -/
theorem release_omits_self (p : String) (input : List String) (l : List FileInfo) (d : Paragraph)
    (h : getFilesFromRelease p input = some (l, d)) :
    (∀ fi ∈ l, fi.path ≠ pathJoin2 (pathDir p) "Release" ∧
       fi.path ≠ pathJoin2 (pathDir p) "Release.gpg" ∧
       fi.path ≠ pathJoin2 (pathDir p) "InRelease") ∧
    (∀ line ∈ paraFind d "MD5Sum" ++ paraFind d "SHA1" ++ paraFind d "SHA256",
      ∀ p0 size csum, parseChecksum line = some (p0, size, csum) →
        pathJoin2 (pathDir p) (cleanPath p0) ≠ pathJoin2 (pathDir p) "Release" →
        pathJoin2 (pathDir p) (cleanPath p0) ≠ pathJoin2 (pathDir p) "Release.gpg" →
        pathJoin2 (pathDir p) (cleanPath p0) ≠ pathJoin2 (pathDir p) "InRelease" →
        ∃ fi ∈ l, fi.path = pathJoin2 (pathDir p) (cleanPath p0)) := by
  unfold getFilesFromRelease at h
  cases hpr : ctlRead ⟨input, "", none, false⟩ with
  | mk res st =>
    rw [hpr] at h
    cases res with
    | error e => exact absurd h (by simp)
    | ok d0 =>
      dsimp only at h
      by_cases hemp : (paraFind d0 "MD5Sum").length = 0 ∧ (paraFind d0 "SHA1").length = 0 ∧
          (paraFind d0 "SHA256").length = 0
      · rw [if_pos hemp] at h
        have hinj := Option.some.inj h
        have hl : l = [] := (congrArg Prod.fst hinj).symm
        have hd : d = d0 := (congrArg Prod.snd hinj).symm
        constructor
        · intro fi hfi; rw [hl] at hfi; exact absurd hfi (by simp)
        · intro line hline
          rw [hd] at hline
          rw [List.length_eq_zero.mp hemp.1, List.length_eq_zero.mp hemp.2.1,
            List.length_eq_zero.mp hemp.2.2] at hline
          exact absurd hline (by simp)
      · rw [if_neg hemp] at h
        cases hm1 : relLoop updMd5 (pathDir p) (paraFind d0 "MD5Sum") [] with
        | none => rw [hm1] at h; exact absurd h (by simp)
        | some m1 =>
          rw [hm1] at h
          dsimp only at h
          cases hm2 : relLoop updSha1 (pathDir p) (paraFind d0 "SHA1") m1 with
          | none => rw [hm2] at h; exact absurd h (by simp)
          | some m2 =>
            rw [hm2] at h
            dsimp only at h
            cases hm3 : relLoop updSha256 (pathDir p) (paraFind d0 "SHA256") m2 with
            | none => rw [hm3] at h; exact absurd h (by simp)
            | some m3 =>
              rw [hm3] at h
              dsimp only at h
              have hinj := Option.some.inj h
              have hl : l = (fmDel (fmDel (fmDel m3 (pathJoin2 (pathDir p) "Release"))
                  (pathJoin2 (pathDir p) "Release.gpg"))
                  (pathJoin2 (pathDir p) "InRelease")).map (fun kv => kv.2) :=
                (congrArg Prod.fst hinj).symm
              have hd : d = d0 := (congrArg Prod.snd hinj).symm
              have hinv3 : ∀ kv ∈ m3, kv.2.path = kv.1 := by
                refine relLoop_path_inv updSha256 (pathDir p) updSha256_inv _ m2 m3 hm3 ?_
                refine relLoop_path_inv updSha1 (pathDir p) updSha1_inv _ m1 m2 hm2 ?_
                refine relLoop_path_inv updMd5 (pathDir p) updMd5_inv _ [] m1 hm1 ?_
                intro kv hkv
                exact absurd hkv (by simp)
              constructor
              · intro fi hfi
                rw [hl] at hfi
                obtain ⟨kv, hkv, hfieq⟩ := List.mem_map.mp hfi
                have h3 := mem_fmDel _ _ _ hkv
                have h2 := mem_fmDel _ _ _ h3.1
                have h1 := mem_fmDel _ _ _ h2.1
                have hpathkey : fi.path = kv.1 := hfieq ▸ hinv3 kv h1.1
                exact ⟨hpathkey ▸ h1.2, hpathkey ▸ h2.2, hpathkey ▸ h3.2⟩
              · intro line hline p0 size csum hp hne1 hne2 hne3
                rw [hd] at hline
                have hsome3 : (fmFind m3 (pathJoin2 (pathDir p) (cleanPath p0))).isSome
                    = true := by
                  rcases List.mem_append.mp hline with hml | hml'
                  · rcases List.mem_append.mp hml with hmd | hs1
                    · refine relLoop_isSome_mono updSha256 (pathDir p) updSha256_pres _
                        m2 m3 hm3 _ ?_
                      refine relLoop_isSome_mono updSha1 (pathDir p) updSha1_pres _
                        m1 m2 hm2 _ ?_
                      exact relLoop_covers updMd5 (pathDir p) updMd5_pres updMd5_add _
                        [] m1 hm1 line hmd p0 size csum hp
                    · refine relLoop_isSome_mono updSha256 (pathDir p) updSha256_pres _
                        m2 m3 hm3 _ ?_
                      exact relLoop_covers updSha1 (pathDir p) updSha1_pres updSha1_add _
                        m1 m2 hm2 line hs1 p0 size csum hp
                  · exact relLoop_covers updSha256 (pathDir p) updSha256_pres updSha256_add _
                      m2 m3 hm3 line hml' p0 size csum hp
                have hsome4 : (fmFind (fmDel (fmDel (fmDel m3
                    (pathJoin2 (pathDir p) "Release")) (pathJoin2 (pathDir p) "Release.gpg"))
                    (pathJoin2 (pathDir p) "InRelease"))
                    (pathJoin2 (pathDir p) (cleanPath p0))).isSome = true := by
                  rw [fmFind_fmDel, if_neg hne3, fmFind_fmDel, if_neg hne2,
                    fmFind_fmDel, if_neg hne1]
                  exact hsome3
                obtain ⟨fi, hfi⟩ := Option.isSome_iff_exists.mp hsome4
                have hmem := fmFind_mem _ _ _ hfi
                refine ⟨fi, ?_, ?_⟩
                · rw [hl]
                  exact List.mem_map.mpr ⟨_, hmem, rfl⟩
                · have hinv4 : fi.path = pathJoin2 (pathDir p) (cleanPath p0) := by
                    have h3 := mem_fmDel _ _ _ hmem
                    have h2 := mem_fmDel _ _ _ h3.1
                    have h1 := mem_fmDel _ _ _ h2.1
                    exact hinv3 _ h1.1
                  exact hinv4

/-- Release input for the C5 witness: an `MD5Sum` block listing the
release itself (to be omitted) and one ordinary file. -/
def relInput5 : List String :=
  ["MD5Sum:", " 0a 1 Release", " 0b 2 main/binary-amd64/Packages"]

/-- The paragraph parsed from `relInput5`. -/
def relPara5 : Paragraph :=
  [("MD5Sum", ["0a 1 Release", "0b 2 main/binary-amd64/Packages"])]

/-- The one record extracted from `relInput5`: the self-digest for
`Release` is dropped. -/
def relOut5 : List FileInfo :=
  [⟨"ubuntu/dists/trusty/main/binary-amd64/Packages", 2, some [11], none, none⟩]

/-- C5 witness: on the concrete release above, the extractor omits the
self-record and keeps the Packages record. -/
theorem release_omits_self_witness :
    (∀ fi ∈ relOut5,
       fi.path ≠ pathJoin2 (pathDir "ubuntu/dists/trusty/Release") "Release" ∧
       fi.path ≠ pathJoin2 (pathDir "ubuntu/dists/trusty/Release") "Release.gpg" ∧
       fi.path ≠ pathJoin2 (pathDir "ubuntu/dists/trusty/Release") "InRelease") ∧
    (∀ line ∈ paraFind relPara5 "MD5Sum" ++ paraFind relPara5 "SHA1" ++
        paraFind relPara5 "SHA256",
      ∀ p0 size csum, parseChecksum line = some (p0, size, csum) →
        pathJoin2 (pathDir "ubuntu/dists/trusty/Release") (cleanPath p0)
          ≠ pathJoin2 (pathDir "ubuntu/dists/trusty/Release") "Release" →
        pathJoin2 (pathDir "ubuntu/dists/trusty/Release") (cleanPath p0)
          ≠ pathJoin2 (pathDir "ubuntu/dists/trusty/Release") "Release.gpg" →
        pathJoin2 (pathDir "ubuntu/dists/trusty/Release") (cleanPath p0)
          ≠ pathJoin2 (pathDir "ubuntu/dists/trusty/Release") "InRelease" →
        ∃ fi ∈ relOut5,
          fi.path = pathJoin2 (pathDir "ubuntu/dists/trusty/Release") (cleanPath p0)) :=
  release_omits_self "ubuntu/dists/trusty/Release" relInput5 relOut5 relPara5
    (by simp [getFilesFromRelease, relInput5, relOut5, relPara5, ctlRead, scanLoop, pgpBegin,
      splitColon, trimSpaceTab, isSpaceTab, paraAppend, paraFind, relLoop, parseChecksum,
      splitFields, fieldsAux, isGoSpace, parseUint64, hexDecode, hexDecodeList, hexVal,
      updMd5, fmSet, fmDel, pathJoin2, pathDir, cleanPath, cleanList, splitChar,
      cleanStack, intercalateChar, upToLastSlash])

/-! ## The cacher's on-disk store (`cacher.Storage`, from
`src/unnamed/part_012`)

The store is embedded as explicit state: `entries` models both the path map
`cache` and the LRU heap `lru` (the two always hold the same entries in the
Go code; the heap becomes a plain list whose minimum-atime element is
popped), and `disk` models the regular files below the store directory,
keyed by file name `<path>.cache`.  Temp files live outside `disk`; a
download's bytes are passed to `Insert` directly.  Go returns errors
without touching the receiver, so an `Except.error` result leaves the store
as it was. -/

/-- Embeds the `fileSuffix` constant. -/
def fileSuffix : String := ".cache"

/-- Embeds `cacher.entry`: a record plus its access stamp.  The heap
`index` field is array bookkeeping of `container/heap` with no observable
content in the list model. -/
structure Entry where
  fi : FileInfo
  atime : Nat
deriving Repr, DecidableEq

/-- Embeds `cacher.Storage` (the fields `dir` and `mu` — a fixed mount
point and a mutex — have no content in a sequential value model). -/
structure Storage where
  capacity : Nat
  used : Nat
  lclock : Nat
  entries : List Entry
  disk : List (String × Bytes)
deriving Repr, DecidableEq

/-- Errors of the store: `ErrNotFound`, `ErrBadPath`, and file-system
errors such as a failing `os.Link`, `os.Open` or `readData`. -/
inductive StoreErr where
  | notFound
  | badPath
  | ioError
deriving Repr, DecidableEq

/-- Reads a file from the modelled directory. -/
def diskFind (d : List (String × Bytes)) (k : String) : Option Bytes :=
  match d.find? (fun kv => kv.1 == k) with
  | some kv => some kv.2
  | none => none

/-- Embeds `os.Remove` on the modelled directory. -/
def diskErase (d : List (String × Bytes)) (k : String) : List (String × Bytes) :=
  d.filter (fun kv => !(kv.1 == k))

/-- Embeds the map read `cm.cache[p]`. -/
def entFind (es : List Entry) (p : String) : Option Entry :=
  es.find? (fun e => e.fi.path == p)

/-- Embeds the in-place mutation of the entry found for path `p` (shared
between `cache` and `lru` through the same pointer). -/
def entReplace (es : List Entry) (p : String) (e' : Entry) : List Entry :=
  match es with
  | [] => []
  | e :: rest => if e.fi.path == p then e' :: rest else e :: entReplace rest p e'

/-- Embeds `heap.Pop` on the atime-keyed min-heap: remove the first entry
with minimal access time.  (All access times are distinct in reachable
states, as each one is a fresh value of the logical clock.) -/
def popMin : List Entry → Option (Entry × List Entry)
  | [] => none
  | e :: es =>
    match popMin es with
    | none => some (e, [])
    | some (m, rest) => if m.atime < e.atime then some (m, e :: rest) else some (e, es)

theorem popMin_none_iff (es : List Entry) : popMin es = none ↔ es = [] := by
  cases es with
  | nil => simp [popMin]
  | cons e es =>
    simp only [popMin]
    cases popMin es with
    | none => simp
    | some pr =>
      obtain ⟨m, rest⟩ := pr
      by_cases h : m.atime < e.atime <;> simp [h]

theorem popMin_perm (es : List Entry) (e : Entry) (rest : List Entry)
    (h : popMin es = some (e, rest)) : es.Perm (e :: rest) := by
  induction es generalizing e rest with
  | nil => exact absurd h (by simp [popMin])
  | cons e0 es0 ih =>
    rw [popMin] at h
    cases hp : popMin es0 with
    | none =>
      rw [hp] at h
      dsimp only at h
      have h0 : es0 = [] := (popMin_none_iff es0).mp hp
      simp only [Option.some.injEq, Prod.mk.injEq] at h
      rw [h0, ← h.1, ← h.2]
    | some pr =>
      obtain ⟨m, mrest⟩ := pr
      rw [hp] at h
      dsimp only at h
      by_cases hlt : m.atime < e0.atime
      · rw [if_pos hlt] at h
        simp only [Option.some.injEq, Prod.mk.injEq] at h
        have hperm0 := ih m mrest hp
        have hc1 : (e0 :: es0).Perm (e0 :: m :: mrest) := hperm0.cons e0
        have hc2 : (e0 :: m :: mrest).Perm (m :: e0 :: mrest) := List.Perm.swap _ _ _
        rw [← h.1, ← h.2]
        exact hc1.trans hc2
      · rw [if_neg hlt] at h
        simp only [Option.some.injEq, Prod.mk.injEq] at h
        rw [← h.1, ← h.2]

theorem popMin_min (es : List Entry) (e : Entry) (rest : List Entry)
    (h : popMin es = some (e, rest)) : ∀ x ∈ rest, e.atime ≤ x.atime := by
  induction es generalizing e rest with
  | nil => exact absurd h (by simp [popMin])
  | cons e0 es0 ih =>
    rw [popMin] at h
    cases hp : popMin es0 with
    | none =>
      rw [hp] at h
      dsimp only at h
      simp only [Option.some.injEq, Prod.mk.injEq] at h
      rw [← h.2]
      simp
    | some pr =>
      obtain ⟨m, mrest⟩ := pr
      rw [hp] at h
      dsimp only at h
      by_cases hlt : m.atime < e0.atime
      · rw [if_pos hlt] at h
        simp only [Option.some.injEq, Prod.mk.injEq] at h
        intro x hx
        rw [← h.2] at hx
        rw [← h.1]
        rcases List.mem_cons.mp hx with rfl | hx'
        · exact Nat.le_of_lt hlt
        · exact ih m mrest hp x hx'
      · rw [if_neg hlt] at h
        simp only [Option.some.injEq, Prod.mk.injEq] at h
        intro x hx
        rw [← h.2] at hx
        rw [← h.1]
        have hperm0 := popMin_perm es0 m mrest hp
        have hx2 := (hperm0.mem_iff).mp hx
        rcases List.mem_cons.mp hx2 with rfl | h1
        · exact Nat.le_of_not_lt hlt
        · exact Nat.le_trans (Nat.le_of_not_lt hlt) (ih m mrest hp x h1)

theorem popMin_length (es : List Entry) (e : Entry) (rest : List Entry)
    (h : popMin es = some (e, rest)) : rest.length < es.length := by
  have := (popMin_perm es e rest h).length_eq
  simp at this
  omega

/-- Embeds `Storage.maint`: while the capacity is positive and exceeded,
pop the minimum-atime entry, take it out of the map, deduct its size and
remove its file.  (`heap.Pop` on an empty heap panics in Go; that state is
unreachable whenever `used` is the sum of the entry sizes, since an empty
entry list forces `used = 0`.  The model returns the state unchanged
there.) -/
def Storage.maint (s : Storage) : Storage :=
  if s.capacity > 0 ∧ s.used > s.capacity then
    match hpop : popMin s.entries with
    | none => s
    | some (e, rest) =>
      Storage.maint { s with
        entries := rest
        used := s.used - e.fi.size
        disk := diskErase s.disk (e.fi.path ++ fileSuffix) }
  else s
termination_by s.entries.length
decreasing_by
  exact popMin_length s.entries e rest hpop

/-- Embeds `Storage.Insert`: reject unclean, absolute, empty or `.` paths;
drop any existing entry for the path together with its file and size;
hard-link the temp file's bytes to `<path>.cache` (`os.Link` fails when the
target still exists); push a fresh entry at the current logical clock; run
eviction.  `d` is the content of the temp file named in Go by `filename`. -/
def Storage.Insert (d : Bytes) (fi : FileInfo) (s : Storage) : Except StoreErr Storage :=
  let p := fi.path
  if p ≠ cleanPath p then .error .badPath
  else if isAbsPath p then .error .badPath
  else if p = "." then .error .badPath
  else
    let s1 :=
      match entFind s.entries p with
      | some existing =>
        { s with
          disk := diskErase s.disk (p ++ fileSuffix)
          used := s.used - existing.fi.size
          entries := s.entries.eraseP (fun e => e.fi.path == p) }
      | none => s
    if (diskFind s1.disk (p ++ fileSuffix)).isSome then .error .ioError
    else
      .ok (Storage.maint { s1 with
        entries := s1.entries ++ [⟨fi, s1.lclock⟩]
        disk := s1.disk ++ [(p ++ fileSuffix, d)]
        used := s1.used + fi.size
        lclock := s1.lclock + 1 })

/-- Embeds `Storage.Lookup` for a query record that does not share memory
with the entry (the stale-check call pattern: the record comes from a
fresh index extraction): find the entry, compute missing digests from the
file's bytes (the delayed `calcChecksum`, an in-place mutation of the
record shared by map and heap), invalidate on `Same` mismatch, refresh the
access stamp and return the file's content as the open handle.  The Go
argument is a pointer; when it is instead the entry's own record, the
in-place mutation reaches the query too and `Same`'s `fi == t` pointer
shortcut fires — that call pattern is `Storage.LookupOwn` below. -/
def Storage.Lookup (H : HashFns) (cm : Storage) (fi : FileInfo) :
    Except StoreErr Bytes × Storage :=
  match entFind cm.entries fi.path with
  | none => (.error .notFound, cm)
  | some e =>
    match (if e.fi.HasChecksum then some e
           else (diskFind cm.disk (e.fi.path ++ fileSuffix)).map
             (fun data => { e with fi := calcChecksums H data e.fi })) with
    | none => (.error .ioError, cm)
    | some e' =>
      let cm1 := { cm with entries := entReplace cm.entries fi.path e' }
      if !(FileInfo.Same fi e'.fi) then (.error .notFound, cm1)
      else
        let e'' := { e' with atime := cm1.lclock }
        let cm2 := { cm1 with
          entries := entReplace cm1.entries fi.path e''
          lclock := cm1.lclock + 1 }
        match diskFind cm2.disk (e'.fi.path ++ fileSuffix) with
        | some data => (.ok data, cm2)
        | none => (.error .ioError, cm2)

/-- Embeds `Storage.Lookup` for the call pattern in which the argument is
the very record the found entry holds — the situation directly after
`Insert(p, r)` with the same `r`, and likewise for cacher lookups through
the shared `info` map.  The source lines are the same as in
`Storage.Lookup`; the two deviations are forced by the shared pointer:
`calcChecksum`'s in-place `CalcChecksums` updates the caller's record
together with the entry, and `fi.Same(e.FileInfo)` returns true through
its `fi == t` pointer shortcut, so no `ErrNotFound`-on-mismatch branch
remains. -/
def Storage.LookupOwn (H : HashFns) (cm : Storage) (fi : FileInfo) :
    Except StoreErr Bytes × Storage :=
  match entFind cm.entries fi.path with
  | none => (.error .notFound, cm)
  | some e =>
    match (if e.fi.HasChecksum then some e
           else (diskFind cm.disk (e.fi.path ++ fileSuffix)).map
             (fun data => { e with fi := calcChecksums H data e.fi })) with
    | none => (.error .ioError, cm)
    | some e' =>
      let cm1 := { cm with entries := entReplace cm.entries fi.path e' }
      -- fi.Same(e.FileInfo) with fi and e.FileInfo the same pointer: true
      let e'' := { e' with atime := cm1.lclock }
      let cm2 := { cm1 with
        entries := entReplace cm1.entries fi.path e''
        lclock := cm1.lclock + 1 }
      match diskFind cm2.disk (e'.fi.path ++ fileSuffix) with
      | some data => (.ok data, cm2)
      | none => (.error .ioError, cm2)

/-- One step of the walk in `Storage.Load`: regular files without the
`.cache` suffix are skipped, known paths are kept, and any other file
becomes a digest-less entry sized from the directory entry. -/
def loadStep (cm : Storage) (f : String × Bytes) : Storage :=
  if pathExt f.1 ≠ fileSuffix then cm
  else
    let sub := dropLastStr f.1 fileSuffix.length
    if (entFind cm.entries sub).isSome then cm
    else
      { cm with
        entries := cm.entries ++ [⟨makeFileInfoNoChecksum sub f.2.length, cm.lclock⟩]
        used := cm.used + f.2.length
        lclock := cm.lclock + 1 }

/-- Embeds `Storage.Load`: walk the directory (the files of `disk`), add an
entry per `.cache` file, then heapify (a no-op in the list model) and run
eviction. -/
def Storage.Load (cm : Storage) : Storage :=
  Storage.maint (cm.disk.foldl loadStep cm)

/-- The sum of the entry sizes, spec invariant (I2). -/
def sumSizes (es : List Entry) : Nat := es.foldr (fun e acc => e.fi.size + acc) 0

/-- Well-formedness of a store: `used` is the sum of the entry sizes, all
access stamps are below the logical clock, and paths are unique. -/
def Storage.WF (s : Storage) : Prop :=
  sumSizes s.entries = s.used ∧
  (∀ e ∈ s.entries, e.atime < s.lclock) ∧
  (s.entries.map (fun e => e.fi.path)).Nodup

theorem sumSizes_eq_map_sum (es : List Entry) :
    sumSizes es = (es.map (fun e => e.fi.size)).sum := by
  induction es with
  | nil => rfl
  | cons e rest ih => simp [sumSizes, List.foldr] at ih ⊢; omega

theorem sumSizes_perm (a b : List Entry) (h : a.Perm b) : sumSizes a = sumSizes b := by
  rw [sumSizes_eq_map_sum, sumSizes_eq_map_sum]
  exact (h.map _).sum_eq

theorem sumSizes_cons (e : Entry) (es : List Entry) :
    sumSizes (e :: es) = e.fi.size + sumSizes es := rfl

theorem sumSizes_append (a b : List Entry) :
    sumSizes (a ++ b) = sumSizes a + sumSizes b := by
  induction a with
  | nil => simp [sumSizes]
  | cons e rest ih => simp [sumSizes_cons, ih]; omega

theorem find?_perm_eraseP {α} (pr : α → Bool) (l : List α) (x : α)
    (h : l.find? pr = some x) : l.Perm (x :: l.eraseP pr) := by
  induction l with
  | nil => simp at h
  | cons a rest ih =>
    by_cases ha : pr a
    · rw [List.find?_cons_of_pos _ ha] at h
      have hx : a = x := by simpa using h
      rw [List.eraseP_cons_of_pos ha, hx]
    · rw [List.find?_cons_of_neg _ ha] at h
      rw [List.eraseP_cons_of_neg ha]
      have hperm := ih h
      have hc1 : (a :: rest).Perm (a :: x :: rest.eraseP pr) := hperm.cons a
      have hc2 : (a :: x :: rest.eraseP pr).Perm (x :: a :: rest.eraseP pr) :=
        List.Perm.swap _ _ _
      exact hc1.trans hc2

theorem entFind_path (es : List Entry) (p : String) (e : Entry)
    (h : entFind es p = some e) : e.fi.path = p := by
  have := List.find?_some h
  simpa using this

theorem entFind_mem (es : List Entry) (p : String) (e : Entry)
    (h : entFind es p = some e) : e ∈ es :=
  List.mem_of_find?_eq_some h

theorem entFind_eq_none (es : List Entry) (p : String)
    (h : entFind es p = none) : ∀ e ∈ es, e.fi.path ≠ p := by
  intro e he
  have := List.find?_eq_none.mp h e he
  simpa using this

theorem entFind_unique (es : List Entry) (e : Entry)
    (hmem : e ∈ es) (hnodup : (es.map (fun x => x.fi.path)).Nodup) :
    entFind es e.fi.path = some e := by
  induction es with
  | nil => exact absurd hmem (by simp)
  | cons a rest ih =>
    rcases List.mem_cons.mp hmem with rfl | hmem'
    · unfold entFind
      rw [List.find?_cons_of_pos _ (by simp)]
    · have hne : a.fi.path ≠ e.fi.path := by
        intro hc
        have : a.fi.path ∈ rest.map (fun x => x.fi.path) :=
          List.mem_map.mpr ⟨e, hmem', hc.symm⟩
        exact (List.nodup_cons.mp hnodup).1 this
      unfold entFind
      rw [List.find?_cons_of_neg _ (by simpa using hne)]
      exact ih hmem' (List.nodup_cons.mp hnodup).2

theorem diskFind_diskErase (d : List (String × Bytes)) (k q : String) (h : q ≠ k) :
    diskFind (diskErase d k) q = diskFind d q := by
  induction d with
  | nil => rfl
  | cons kv rest ih =>
    by_cases hk : kv.1 = k
    · have h1 : (!(kv.1 == k)) = false := by simpa using hk
      have h2 : (kv.1 == q) = false := by
        simp only [beq_eq_false_iff_ne, ne_eq]
        rw [hk]
        exact fun hc => h hc.symm
      simp only [diskErase, List.filter, h1]
      rw [show diskFind (kv :: rest) q
          = diskFind rest q by simp [diskFind, List.find?, h2]]
      simpa [diskErase] using ih
    · have h1 : (!(kv.1 == k)) = true := by simpa using hk
      simp only [diskErase, List.filter, h1]
      cases hq : (kv.1 == q) with
      | true => simp [diskFind, List.find?, hq]
      | false =>
        rw [show diskFind (kv :: rest) q
            = diskFind rest q by simp [diskFind, List.find?, hq]]
        simp only [diskFind, List.find?, hq]
        simpa [diskErase, diskFind] using ih

theorem diskFind_append_new (d : List (String × Bytes)) (k : String) (v : Bytes)
    (h : diskFind d k = none) : diskFind (d ++ [(k, v)]) k = some v := by
  induction d with
  | nil => simp [diskFind, List.find?]
  | cons kv rest ih =>
    cases hk : (kv.1 == k) with
    | true => simp [diskFind, List.find?, hk] at h
    | false =>
      simp only [diskFind, List.find?, List.cons_append, hk] at h ⊢
      exact ih h

/-- `maint` never changes the capacity. -/
theorem maint_capacity (s : Storage) : (Storage.maint s).capacity = s.capacity := by
  induction s using Storage.maint.induct with
  | case1 s hcond hpop =>
    rw [Storage.maint, if_pos hcond, hpop]
  | case2 s hcond e rest hpop ih =>
    rw [Storage.maint, if_pos hcond, hpop]
    exact ih
  | case3 s hcond =>
    rw [Storage.maint, if_neg hcond]

/-- Spec invariant (I5) for `maint`: with `used` the sum of the entry sizes
and a positive capacity, eviction drives `used` to at most the capacity. -/
theorem maint_le (s : Storage) :
    sumSizes s.entries = s.used → 0 < s.capacity →
    (Storage.maint s).used ≤ s.capacity := by
  induction s using Storage.maint.induct with
  | case1 s hcond hpop =>
    intro hsum hcap
    rw [Storage.maint, if_pos hcond, hpop]
    have : s.entries = [] := (popMin_none_iff _).mp hpop
    rw [this] at hsum
    simp [sumSizes] at hsum
    omega
  | case2 s hcond e rest hpop ih =>
    intro hsum hcap
    rw [Storage.maint, if_pos hcond, hpop]
    have hperm := popMin_perm _ _ _ hpop
    have hsum2 : sumSizes s.entries = e.fi.size + sumSizes rest := by
      rw [sumSizes_perm _ _ hperm, sumSizes_cons]
    have := ih (by simp only []; omega) (by simpa using hcap)
    simpa [maint_capacity] using this
  | case3 s hcond =>
    intro hsum hcap
    rw [Storage.maint, if_neg hcond]
    push_neg at hcond
    exact hcond hcap

theorem strAppend_right_cancel (a b c : String) (h : a ++ c = b ++ c) : a = b := by
  have hd : a.data ++ c.data = b.data ++ c.data := by
    have := congrArg String.data h
    simpa using this
  exact String.ext (List.append_cancel_right hd)

/-- The entry with the strictly largest access time survives `maint`
whenever its size alone fits the capacity (or the capacity is zero), and
its on-disk file is untouched; path uniqueness is preserved. -/
theorem maint_keeps_max (s : Storage) :
    ∀ estar : Entry,
    sumSizes s.entries = s.used →
    (s.entries.map (fun e => e.fi.path)).Nodup →
    estar ∈ s.entries →
    (∀ e' ∈ s.entries, e' ≠ estar → e'.atime < estar.atime) →
    (s.capacity = 0 ∨ estar.fi.size ≤ s.capacity) →
    estar ∈ (Storage.maint s).entries ∧
    diskFind (Storage.maint s).disk (estar.fi.path ++ fileSuffix)
      = diskFind s.disk (estar.fi.path ++ fileSuffix) ∧
    ((Storage.maint s).entries.map (fun e => e.fi.path)).Nodup := by
  induction s using Storage.maint.induct with
  | case1 s hcond hpop =>
    intro estar hsum hnodup hmem hmax hcap
    have : s.entries = [] := (popMin_none_iff _).mp hpop
    rw [this] at hmem
    exact absurd hmem (by simp)
  | case2 s hcond e rest hpop ih =>
    intro estar hsum hnodup hmem hmax hcap
    have hperm := popMin_perm _ _ _ hpop
    have hnodup2 : (e.fi.path :: rest.map (fun x => x.fi.path)).Nodup := by
      have hmp := hperm.map (fun x => x.fi.path)
      exact (hmp.nodup_iff).mp hnodup
    by_cases he : e = estar
    · exfalso
      subst he
      have hrestnil : rest = [] := by
        cases hrest : rest with
        | nil => rfl
        | cons x xs =>
          exfalso
          have hxmem : x ∈ rest := by rw [hrest]; exact List.mem_cons_self _ _
          have hxes : x ∈ s.entries := hperm.mem_iff.mpr (List.mem_cons_of_mem _ hxmem)
          have hxne : x ≠ e := by
            intro hc
            have hpne := (List.nodup_cons.mp hnodup2).1
            exact hpne (List.mem_map.mpr ⟨x, hxmem, by rw [hc]⟩)
          have h1 := hmax x hxes hxne
          have h2 := popMin_min _ _ _ hpop x hxmem
          omega
      have hsum1 : sumSizes s.entries = e.fi.size := by
        rw [sumSizes_perm _ _ hperm, hrestnil, sumSizes_cons]
        simp [sumSizes]
      obtain ⟨hc1, hc2⟩ := hcond
      rcases hcap with h0 | hle <;> omega
    · rw [Storage.maint, if_pos hcond, hpop]
      have hmemrest : estar ∈ rest := by
        have hmem2 := hperm.mem_iff.mp hmem
        rcases List.mem_cons.mp hmem2 with hh | hh
        · exact absurd hh.symm he
        · exact hh
      have hpathne : e.fi.path ≠ estar.fi.path := by
        intro hc
        have hpne := (List.nodup_cons.mp hnodup2).1
        exact hpne (by rw [hc]; exact List.mem_map.mpr ⟨estar, hmemrest, rfl⟩)
      have hsum2 : sumSizes s.entries = e.fi.size + sumSizes rest := by
        rw [sumSizes_perm _ _ hperm, sumSizes_cons]
      have hres := ih estar (by simp only []; omega) (List.nodup_cons.mp hnodup2).2 hmemrest
        (fun e' he' hne => hmax e' (hperm.mem_iff.mpr (List.mem_cons_of_mem _ he')) hne)
        (by simpa using hcap)
      refine ⟨hres.1, ?_, hres.2.2⟩
      rw [hres.2.1]
      apply diskFind_diskErase
      intro hc
      exact hpathne (strAppend_right_cancel _ _ _ hc).symm
  | case3 s hcond =>
    intro estar hsum hnodup hmem hmax hcap
    rw [Storage.maint, if_neg hcond]
    exact ⟨hmem, rfl, hnodup⟩

/-- A lookup through the shared record succeeds with the file's bytes
whenever the entry is found for the record's path and the backing file is
on disk — with or without digests on the record (the delayed checksum
computation only fills them in). -/
theorem lookupOwn_hit (H : HashFns) (cm : Storage) (r : FileInfo) (e : Entry) (d : Bytes)
    (hfind : entFind cm.entries r.path = some e)
    (hpath : e.fi.path = r.path)
    (hdisk : diskFind cm.disk (r.path ++ fileSuffix) = some d) :
    (Storage.LookupOwn H cm r).1 = .ok d := by
  unfold Storage.LookupOwn
  rw [hfind]
  dsimp only
  by_cases hchk : e.fi.HasChecksum = true
  · rw [if_pos hchk]
    dsimp only
    rw [hpath, hdisk]
  · rw [if_neg hchk]
    rw [hpath, hdisk]
    dsimp only [Option.map]
    have hp2 : (calcChecksums H d e.fi).path = r.path := hpath
    rw [hp2, hdisk]

/-- C7: `Storage.Insert` rejects the empty path, `.`, absolute paths, and
any path that differs from its cleaned form, failing with `ErrBadPath`.
The rejection happens before any mutation (in this model an `Except.error`
carries no state: the entry list, `used` counter and `disk` are those of
the argument store). -/
theorem insert_badpath (d : Bytes) (fi : FileInfo) (s : Storage)
    (hbad : fi.path = "" ∨ fi.path = "." ∨ isAbsPath fi.path = true ∨
      fi.path ≠ cleanPath fi.path) :
    Storage.Insert d fi s = .error .badPath := by
  unfold Storage.Insert
  dsimp only
  rcases hbad with h | h | h | h
  · rw [if_pos (show fi.path ≠ cleanPath fi.path from by rw [h]; decide)]
  · rw [h]
    rw [if_neg (show ¬("." ≠ cleanPath ".") by decide), if_neg (by decide), if_pos rfl]
  · by_cases hcl : fi.path ≠ cleanPath fi.path
    · rw [if_pos hcl]
    · rw [if_neg hcl, if_pos h]
  · rw [if_pos h]

/-- C7 witness: inserting at the uncleaned path `./rel` into the empty
store fails with `ErrBadPath`. -/
theorem insert_badpath_witness :
    Storage.Insert [1] ⟨"./rel", 1, none, none, none⟩ ⟨0, 0, 0, [], []⟩
      = .error .badPath :=
  insert_badpath [1] ⟨"./rel", 1, none, none, none⟩ ⟨0, 0, 0, [], []⟩
    (Or.inr (Or.inr (Or.inr (by decide))))

/-- The walk of `Storage.Load` keeps `used` equal to the sum of entry
sizes and never touches the capacity. -/
theorem loadFold_sum (files : List (String × Bytes)) :
    ∀ cm : Storage, sumSizes cm.entries = cm.used →
      sumSizes ((files.foldl loadStep cm).entries) = (files.foldl loadStep cm).used ∧
      (files.foldl loadStep cm).capacity = cm.capacity := by
  induction files with
  | nil => intro cm hsum; exact ⟨hsum, rfl⟩
  | cons f rest ih =>
    intro cm hsum
    rw [List.foldl_cons]
    have hstep : sumSizes (loadStep cm f).entries = (loadStep cm f).used := by
      unfold loadStep
      by_cases h1 : pathExt f.1 ≠ fileSuffix
      · rw [if_pos h1]; exact hsum
      · rw [if_neg h1]
        dsimp only
        by_cases h2 : (entFind cm.entries (dropLastStr f.1 fileSuffix.length)).isSome = true
        · rw [if_pos h2]; exact hsum
        · rw [if_neg h2]
          dsimp only
          rw [sumSizes_append, hsum, sumSizes_cons]
          simp [sumSizes, makeFileInfoNoChecksum]
    have hcap : (loadStep cm f).capacity = cm.capacity := by
      unfold loadStep
      by_cases h1 : pathExt f.1 ≠ fileSuffix
      · rw [if_pos h1]
      · rw [if_neg h1]
        dsimp only
        by_cases h2 : (entFind cm.entries (dropLastStr f.1 fileSuffix.length)).isSome = true
        · rw [if_pos h2]
        · rw [if_neg h2]
    obtain ⟨ha, hb⟩ := ih (loadStep cm f) hstep
    exact ⟨ha, by rw [hb, hcap]⟩

/-- C3: with `used` equal to the sum of the entry sizes (spec invariant I2)
and a positive capacity, both capacity-constrained operations leave
`used ≤ capacity`: every successful `Insert`, and `Load` (eviction pops the
minimum-atime entry, removes its file and deducts its size until
`used ≤ capacity` — the shape of `Storage.maint`). -/
theorem capacity_bound (s : Storage)
    (hsum : sumSizes s.entries = s.used) (hc : 0 < s.capacity) :
    (∀ d fi s', Storage.Insert d fi s = .ok s' → s'.used ≤ s'.capacity) ∧
    (Storage.Load s).used ≤ (Storage.Load s).capacity := by
  constructor
  · intro d fi s' hins
    unfold Storage.Insert at hins
    dsimp only at hins
    split at hins
    · exact absurd hins (by simp)
    split at hins
    · exact absurd hins (by simp)
    split at hins
    · exact absurd hins (by simp)
    split at hins
    · exact absurd hins (by simp)
    next hnotex =>
    cases hfind : entFind s.entries fi.path with
    | some existing =>
      simp only [hfind] at hins
      have hs' : s' = Storage.maint _ := (Except.ok.inj hins).symm
      rw [hs', maint_capacity]
      apply maint_le
      · have hperm := find?_perm_eraseP _ s.entries existing hfind
        have hse := sumSizes_perm _ _ hperm
        rw [sumSizes_cons] at hse
        dsimp only
        rw [sumSizes_append, sumSizes_cons]
        simp only [sumSizes, List.foldr_nil] at hse hsum ⊢
        omega
      · simpa using hc
    | none =>
      simp only [hfind] at hins
      have hs' : s' = Storage.maint _ := (Except.ok.inj hins).symm
      rw [hs', maint_capacity]
      apply maint_le
      · dsimp only
        rw [sumSizes_append, sumSizes_cons]
        simp only [sumSizes, List.foldr_nil] at hsum ⊢
        omega
      · simpa using hc
  · have h1 := loadFold_sum s.disk s hsum
    unfold Storage.Load
    rw [maint_capacity, h1.2]
    have := maint_le _ h1.1 (by rw [h1.2]; exact hc)
    rw [h1.2] at this
    exact this

/-- C3 witness: the empty store of capacity 1 satisfies the bound after
every insert and after load. -/
theorem capacity_bound_witness :
    (∀ d fi s', Storage.Insert d fi ⟨1, 0, 0, [], []⟩ = .ok s' → s'.used ≤ s'.capacity) ∧
    (Storage.Load ⟨1, 0, 0, [], []⟩).used ≤ (Storage.Load ⟨1, 0, 0, [], []⟩).capacity :=
  capacity_bound ⟨1, 0, 0, [], []⟩ (by decide) (by decide)

/-- C2 (amended): after a successful `Insert(p, r)`, `Lookup(r)` — the
argument being the record the insert stored, so the call is the
shared-record pattern `Storage.LookupOwn` — succeeds with an open handle
to the stored bytes, for any record with or without digests, provided the
store satisfies its invariants and either the capacity is zero or `r`'s
size alone fits it.  (Without the capacity proviso the just-pushed entry
is itself evicted by `maint`; see the counterexample.) -/
theorem insert_lookup_ok (H : HashFns) (d : Bytes) (r : FileInfo) (s s' : Storage)
    (hwf : Storage.WF s)
    (hcap : s.capacity = 0 ∨ r.size ≤ s.capacity)
    (hins : Storage.Insert d r s = .ok s') :
    (Storage.LookupOwn H s' r).1 = .ok d := by
  obtain ⟨hsum, hclk, hnodup⟩ := hwf
  unfold Storage.Insert at hins
  dsimp only at hins
  split at hins
  · exact absurd hins (by simp)
  split at hins
  · exact absurd hins (by simp)
  split at hins
  · exact absurd hins (by simp)
  split at hins
  · exact absurd hins (by simp)
  next hnotex =>
  cases hfind : entFind s.entries r.path with
  | some ex =>
    simp only [hfind] at hins hnotex
    have hs' : s' = Storage.maint _ := (Except.ok.inj hins).symm
    have hperm2 := find?_perm_eraseP _ s.entries ex hfind
    have hkeep := maint_keeps_max
      (⟨s.capacity, s.used - ex.fi.size + r.size, s.lclock + 1,
        s.entries.eraseP (fun e => e.fi.path == r.path) ++ [⟨r, s.lclock⟩],
        diskErase s.disk (r.path ++ fileSuffix) ++ [(r.path ++ fileSuffix, d)]⟩ : Storage)
      ⟨r, s.lclock⟩
      (by
        dsimp only
        have hse := sumSizes_perm _ _ hperm2
        rw [sumSizes_cons] at hse
        rw [sumSizes_append, sumSizes_cons]
        simp only [sumSizes, List.foldr_nil] at hse hsum ⊢
        omega)
      (by
        dsimp only
        have hnodup2 : ((ex :: s.entries.eraseP (fun e => e.fi.path == r.path)).map
            (fun e => e.fi.path)).Nodup :=
          ((hperm2.map (fun e => e.fi.path)).nodup_iff).mp hnodup
        have hexpath : ex.fi.path = r.path := entFind_path _ _ _ hfind
        rw [List.map_append]
        simp only [List.map_cons, List.map_nil]
        rw [List.nodup_append]
        refine ⟨(List.nodup_cons.mp hnodup2).2, by simp, ?_⟩
        intro a ha hb
        simp only [List.mem_singleton] at hb
        subst hb
        have hni := (List.nodup_cons.mp hnodup2).1
        exact hni (show ex.fi.path ∈ _ by rw [hexpath]; exact ha))
      (by simp)
      (by
        intro e' he' hne
        dsimp only at he'
        rcases List.mem_append.mp he' with hl | hr
        · have : e' ∈ s.entries := hperm2.mem_iff.mpr (List.mem_cons_of_mem _ hl)
          exact hclk e' this
        · simp only [List.mem_singleton] at hr
          exact absurd hr hne)
      (by simpa using hcap)
    rw [hs']
    apply lookupOwn_hit H _ r ⟨r, s.lclock⟩ d
    · exact entFind_unique _ _ hkeep.1 hkeep.2.2
    · rfl
    · rw [hkeep.2.1]
      dsimp only
      apply diskFind_append_new
      cases hdn : diskFind (diskErase s.disk (r.path ++ fileSuffix)) (r.path ++ fileSuffix) with
      | none => rfl
      | some v => rw [hdn] at hnotex; exact (hnotex (by simp)).elim
  | none =>
    simp only [hfind] at hins hnotex
    have hs' : s' = Storage.maint _ := (Except.ok.inj hins).symm
    have hkeep := maint_keeps_max
      (⟨s.capacity, s.used + r.size, s.lclock + 1,
        s.entries ++ [⟨r, s.lclock⟩],
        s.disk ++ [(r.path ++ fileSuffix, d)]⟩ : Storage)
      ⟨r, s.lclock⟩
      (by
        dsimp only
        rw [sumSizes_append, sumSizes_cons]
        simp only [sumSizes, List.foldr_nil] at hsum ⊢
        omega)
      (by
        dsimp only
        rw [List.map_append]
        simp only [List.map_cons, List.map_nil]
        rw [List.nodup_append]
        refine ⟨hnodup, by simp, ?_⟩
        intro a ha hb
        simp only [List.mem_singleton] at hb
        subst hb
        obtain ⟨e0, he0, he0p⟩ := List.mem_map.mp ha
        exact entFind_eq_none _ _ hfind e0 he0 he0p)
      (by simp)
      (by
        intro e' he' hne
        dsimp only at he'
        rcases List.mem_append.mp he' with hl | hr
        · exact hclk e' hl
        · simp only [List.mem_singleton] at hr
          exact absurd hr hne)
      (by simpa using hcap)
    rw [hs']
    apply lookupOwn_hit H _ r ⟨r, s.lclock⟩ d
    · exact entFind_unique _ _ hkeep.1 hkeep.2.2
    · rfl
    · rw [hkeep.2.1]
      dsimp only
      apply diskFind_append_new
      cases hdn : diskFind s.disk (r.path ++ fileSuffix) with
      | none => rfl
      | some v => rw [hdn] at hnotex; exact (hnotex (by simp)).elim

/-- Concrete digest functions for witnesses (the model is parametric in
the hash functions, so any choice will do). -/
def H0 : HashFns := ⟨fun _ => [0], fun _ => [1], fun _ => [2]⟩

/-- Record of size 2 for the C2 counterexample. -/
def cxr0 : FileInfo := ⟨"a", 2, some [0], some [0], some [0]⟩

/-- Empty store of capacity 1 for the C2 counterexample. -/
def cxs0 : Storage := ⟨1, 0, 0, [], []⟩

/-- The store after inserting `cxr0`: eviction removed the just-inserted
entry, since its size 2 exceeds the capacity 1. -/
def cxs1 : Storage := ⟨1, 0, 1, [], []⟩

/-- C2: counterexample.  Inserting a record larger than the (positive,
already tight) capacity succeeds, but eviction pops the store back to
empty — the just-inserted entry included — so the immediate lookup fails
with `ErrNotFound` under both call patterns (the shared record of the
insert, and an unshared equal record), contradicting the claim for full
stores. -/
theorem insert_lookup_counterexample :
    Storage.Insert [7, 7] cxr0 cxs0 = .ok cxs1 ∧
    (Storage.LookupOwn H0 cxs1 cxr0).1 = .error .notFound ∧
    (Storage.Lookup H0 cxs1 cxr0).1 = .error .notFound := by
  refine ⟨?_, ?_, ?_⟩
  · simp [Storage.Insert, cxr0, cxs0, cxs1, Storage.maint, popMin, entFind, diskFind,
      diskErase, cleanPath, cleanList, splitChar, cleanStack, intercalateChar, isAbsPath,
      fileSuffix]
  · simp [Storage.LookupOwn, cxs1, cxr0, entFind]
  · simp [Storage.Lookup, cxs1, cxr0, entFind]

/-- Digest-less record for the C2 witness (the delayed checksum path of
the lookup runs). -/
def wir0 : FileInfo := ⟨"a", 1, none, none, none⟩

/-- Empty store with capacity 0 (no eviction) for the C2 witness. -/
def wis0 : Storage := ⟨0, 0, 0, [], []⟩

/-- The C2 witness store after the insert. -/
def wis1 : Storage := ⟨0, 1, 1, [⟨wir0, 0⟩], [("a.cache", [9])]⟩

/-- C2 witness: inserting a digest-less record into the empty store and
looking it up through the shared record returns the stored bytes. -/
theorem insert_lookup_ok_witness : (Storage.LookupOwn H0 wis1 wir0).1 = .ok [9] :=
  insert_lookup_ok H0 [9] wir0 wis0 wis1
    ⟨by decide, by decide, by decide⟩
    (Or.inl rfl)
    (by simp [Storage.Insert, wir0, wis0, wis1, Storage.maint, popMin, entFind, diskFind,
      diskErase, cleanPath, cleanList, splitChar, cleanStack, intercalateChar, isAbsPath,
      fileSuffix])

/-! ## The mirror's by-hash download (`Mirror.download`, from
`src/mirror/mirror.go`)

The HTTP client is modelled as a deterministic response function from
target path to either a transport/read error or a status with body bytes;
sleeps, logging and the context check are timing/observability only. -/

/-- Embeds `httpRetries`. -/
def httpRetries : Nat := 5

/-- The upstream's answer for one target: a transport or body-read error,
or a status code with the body. -/
inductive NetResp where
  | err
  | resp (status : Nat) (data : Bytes)
deriving Repr, DecidableEq

/-- Failure modes of `Mirror.download`: exhausted transport retries, or
`"invalid checksum for <p>"` after the last target mismatched. -/
inductive DlErr where
  | transport
  | invalidChecksum
deriving Repr, DecidableEq

/-- Embeds `dlResult` (the `path` field is the constant `p`). -/
structure DlResult where
  status : Nat
  fi : Option FileInfo
  data : Option Bytes
  err : Option DlErr
deriving Repr, DecidableEq

/-- Embeds the `RETRY:` loop of `Mirror.download`: fetch `targets[0]`;
transport errors and 5xx are retried up to `httpRetries` times; a non-200
ends the download with that status; a 200 whose bytes mismatch the
expected record moves to the next target, declaring a checksum failure
only when no target remains; a match (or no expected record) succeeds. -/
def downloadLoop (H : HashFns) (net : String → NetResp) (p : String) (fi : Option FileInfo)
    (t : String) (rest : List String) (retries : Nat) (status : Nat) : DlResult :=
  match net t with
  | .err =>
    if retries < httpRetries then downloadLoop H net p fi t rest (retries + 1) status
    else { status := status, fi := none, data := none, err := some .transport }
  | .resp st data =>
    if st ≥ 500 ∧ retries < httpRetries then downloadLoop H net p fi t rest (retries + 1) st
    else if st ≠ 200 then { status := st, fi := none, data := none, err := none }
    else
      match fi with
      | some f =>
        if !(FileInfo.Same f (makeFileInfo H p data)) then
          match rest with
          | t2 :: rest2 => downloadLoop H net p fi t2 rest2 retries st
          | [] => { status := st, fi := none, data := none, err := some .invalidChecksum }
        else { status := st, fi := some (makeFileInfo H p data), data := some data, err := none }
      | none => { status := st, fi := some (makeFileInfo H p data), data := some data, err := none }
termination_by rest.length * 6 + (5 - retries)
decreasing_by
  all_goals simp_wf
  all_goals simp only [httpRetries] at *
  all_goals omega

/-- Embeds `Mirror.download`: the target list is the canonical path
followed — when by-hash is enabled and a record is expected — by the
SHA256, SHA1 and MD5Sum aliases, in that order. -/
def download (H : HashFns) (net : String → NetResp) (p : String) (fi : Option FileInfo)
    (byhash : Bool) : DlResult :=
  match byhash, fi with
  | true, some f =>
    downloadLoop H net p (some f) p [f.SHA256Path, f.SHA1Path, f.MD5SumPath] 0 0
  | _, _ => downloadLoop H net p fi p [] 0 0

theorem downloadLoop_200_match (H : HashFns) (net : String → NetResp) (p : String)
    (f : FileInfo) (t : String) (rest : List String) (data : Bytes) (retries status : Nat)
    (hnet : net t = .resp 200 data)
    (hsame : FileInfo.Same f (makeFileInfo H p data) = true) :
    downloadLoop H net p (some f) t rest retries status =
      ⟨200, some (makeFileInfo H p data), some data, none⟩ := by
  rw [downloadLoop, hnet]
  dsimp only
  rw [if_neg (by simp)]
  rw [if_neg (by simp)]
  rw [hsame]
  rw [if_neg (by decide)]

theorem downloadLoop_200_mismatch_cons (H : HashFns) (net : String → NetResp) (p : String)
    (f : FileInfo) (t t2 : String) (rest2 : List String) (data : Bytes) (retries status : Nat)
    (hnet : net t = .resp 200 data)
    (hsame : FileInfo.Same f (makeFileInfo H p data) = false) :
    downloadLoop H net p (some f) t (t2 :: rest2) retries status =
      downloadLoop H net p (some f) t2 rest2 retries 200 := by
  rw [downloadLoop, hnet]
  dsimp only
  rw [if_neg (by simp)]
  rw [if_neg (by simp)]
  rw [hsame]
  rw [if_pos (by decide)]

theorem downloadLoop_200_mismatch_nil (H : HashFns) (net : String → NetResp) (p : String)
    (f : FileInfo) (t : String) (data : Bytes) (retries status : Nat)
    (hnet : net t = .resp 200 data)
    (hsame : FileInfo.Same f (makeFileInfo H p data) = false) :
    downloadLoop H net p (some f) t [] retries status =
      ⟨200, none, none, some .invalidChecksum⟩ := by
  rw [downloadLoop, hnet]
  dsimp only
  rw [if_neg (by simp)]
  rw [if_neg (by simp)]
  rw [hsame]
  rw [if_pos (by decide)]

/-- C6: with by-hash enabled and a known expected record, when the
upstream answers 200 on the canonical path and every alias, the download
tries the canonical path first and, on each checksum mismatch, retries the
SHA256, then SHA1, then MD5Sum alias in order: the result carries the body
of the first target whose bytes match the record, and a checksum failure
is declared only when the last alias also mismatches. -/
theorem mirror_download_byhash_order (H : HashFns) (net : String → NetResp)
    (dat : String → Bytes) (p : String) (f : FileInfo)
    (hnet : ∀ t ∈ [p, f.SHA256Path, f.SHA1Path, f.MD5SumPath], net t = .resp 200 (dat t)) :
    download H net p (some f) true =
      match [p, f.SHA256Path, f.SHA1Path, f.MD5SumPath].find?
          (fun t => FileInfo.Same f (makeFileInfo H p (dat t))) with
      | some t => ⟨200, some (makeFileInfo H p (dat t)), some (dat t), none⟩
      | none => ⟨200, none, none, some .invalidChecksum⟩ := by
  have h1 := hnet p (by simp)
  have h2 := hnet f.SHA256Path (by simp)
  have h3 := hnet f.SHA1Path (by simp)
  have h4 := hnet f.MD5SumPath (by simp)
  unfold download
  dsimp only
  by_cases c1 : FileInfo.Same f (makeFileInfo H p (dat p)) = true
  · rw [downloadLoop_200_match H net p f _ _ _ _ _ h1 c1]
    simp [List.find?, c1]
  · have c1' : FileInfo.Same f (makeFileInfo H p (dat p)) = false :=
      Bool.not_eq_true _ ▸ (by simpa using c1)
    rw [downloadLoop_200_mismatch_cons H net p f _ _ _ _ _ _ h1 c1']
    by_cases c2 : FileInfo.Same f (makeFileInfo H p (dat f.SHA256Path)) = true
    · rw [downloadLoop_200_match H net p f _ _ _ _ _ h2 c2]
      simp [List.find?, c1', c2]
    · have c2' : FileInfo.Same f (makeFileInfo H p (dat f.SHA256Path)) = false := by
        simpa using c2
      rw [downloadLoop_200_mismatch_cons H net p f _ _ _ _ _ _ h2 c2']
      by_cases c3 : FileInfo.Same f (makeFileInfo H p (dat f.SHA1Path)) = true
      · rw [downloadLoop_200_match H net p f _ _ _ _ _ h3 c3]
        simp [List.find?, c1', c2', c3]
      · have c3' : FileInfo.Same f (makeFileInfo H p (dat f.SHA1Path)) = false := by
          simpa using c3
        rw [downloadLoop_200_mismatch_cons H net p f _ _ _ _ _ _ h3 c3']
        by_cases c4 : FileInfo.Same f (makeFileInfo H p (dat f.MD5SumPath)) = true
        · rw [downloadLoop_200_match H net p f _ _ _ _ _ h4 c4]
          simp [List.find?, c1', c2', c3', c4]
        · have c4' : FileInfo.Same f (makeFileInfo H p (dat f.MD5SumPath)) = false := by
            simpa using c4
          rw [downloadLoop_200_mismatch_nil H net p f _ _ _ _ h4 c4']
          simp [List.find?, c1', c2', c3', c4']

/-- Expected record for the C6 witness. -/
def c6f : FileInfo := ⟨"dists/s/main/binary-amd64/Packages", 1, some [1], some [2], some [3]⟩

/-- C6 witness: every target answers 200 with body `[9]`; the download's
result is exactly what the first-matching-target rule prescribes for this
record and body. -/
theorem mirror_download_byhash_order_witness :
    download H0 (fun t => .resp 200 [9]) "dists/s/main/binary-amd64/Packages" (some c6f) true =
      match ["dists/s/main/binary-amd64/Packages", c6f.SHA256Path, c6f.SHA1Path,
          c6f.MD5SumPath].find?
          (fun t => FileInfo.Same c6f
            (makeFileInfo H0 "dists/s/main/binary-amd64/Packages" [9])) with
      | some t => ⟨200, some (makeFileInfo H0 "dists/s/main/binary-amd64/Packages" [9]),
          some [9], none⟩
      | none => ⟨200, none, none, some .invalidChecksum⟩ :=
  mirror_download_byhash_order H0 (fun t => .resp 200 [9]) (fun _ => [9])
    "dists/s/main/binary-amd64/Packages" c6f (fun t _ => rfl)

end Aptutil
